import Mathlib

/-!
# The step pipeline executor of ccb-operator (`pkg/worker/executor/executor.go`)

A shallow embedding of the worker's executor: the stage-2 input reformatter
(`generateSynspecInputFile`, `recreateVarsLine`), the template renderer
(`parseTemplate`) and the per-job step loop of `Executor.Run`.

Go strings are byte sequences; `len`, `strings.HasPrefix`, `strings.Split`,
`strings.Replace` and the regular expression `\s+` all work on bytes (the class
`\s` is ASCII only), so a string is modelled as a list of bytes.
-/

namespace executor

/-- A Go `string`: an immutable sequence of bytes. -/
abbrev GoString := List UInt8

/-- A Go string literal, given as the UTF-8 encoding of a Lean string. -/
def str (s : String) : GoString := s.toUTF8.data.toList

/-- A Go `error` value, represented by its message. -/
abbrev GoError := GoString

/-! ## Library functions used by the reformatter -/

namespace strings

/-- Go `strings.HasPrefix(s, pre)`. -/
def HasPrefix (s pre : GoString) : Bool := pre.isPrefixOf s

/-- Go `strings.Split(s, sep)` for a separator of one byte (the source splits on `" "`):
the pieces between the occurrences of `sep`, always at least one piece. -/
def Split (s : GoString) (sep : UInt8) : List GoString :=
  match s with
  | [] => [[]]
  | b :: rest =>
    if b = sep then [] :: Split rest sep
    else
      match Split rest sep with
      | [] => [[b]]
      | tok :: toks => (b :: tok) :: toks

/-- Go `strings.Join(elems, sep)`. -/
def Join (elems : List GoString) (sep : GoString) : GoString :=
  match elems with
  | [] => []
  | [e] => e
  | e :: rest => e ++ sep ++ Join rest sep

/-- The scan of `strings.Replace` for a non-empty `old`: `limit` is the number of
replacements still allowed (`none`: no limit), `skip` the number of bytes of the
occurrence just replaced that are still to be passed over. -/
def replaceScan (old new : GoString) : Option Nat → Nat → GoString → GoString
  | _, _, [] => []
  | limit, skip + 1, _ :: rest => replaceScan old new limit skip rest
  | limit, 0, b :: rest =>
    if limit ≠ some 0 ∧ old.isPrefixOf (b :: rest) then
      new ++ replaceScan old new (limit.map Nat.pred) (old.length - 1) rest
    else b :: replaceScan old new limit 0 rest

/-- Go `strings.Replace(s, old, new, n)` for a non-empty `old`: the first `n`
non-overlapping occurrences of `old`, from the left, are replaced by `new`; a negative
`n` replaces all of them. -/
def Replace (s old new : GoString) (n : Int) : GoString :=
  replaceScan old new (if n < 0 then none else some n.toNat) 0 s

end strings

namespace regexp

/-- The class `\s` of Go regular expressions: `[\t\n\f\r ]`. -/
def isSpace (b : UInt8) : Bool := b == 9 || b == 10 || b == 12 || b == 13 || b == 32

/-- The scan of `ReplaceAllString` for the pattern `\s+`: `inMatch` says that the
previous byte belonged to a match, whose replacement has been written already. -/
def replaceScan (repl : GoString) : Bool → GoString → GoString
  | _, [] => []
  | inMatch, b :: rest =>
    if isSpace b then
      if inMatch then replaceScan repl true rest else repl ++ replaceScan repl true rest
    else b :: replaceScan repl false rest

/-- Go `space.ReplaceAllString(src, repl)` for `space = regexp.MustCompile("\\s+")` and a
replacement without `$`: every leftmost-longest match of `\s+` is replaced by `repl`. -/
def ReplaceAllString (src repl : GoString) : GoString := replaceScan repl false src

end regexp

/-! ## The stage-2 input reformatter -/

/-- Go `fmt.Sprintf("%s  %s %s  %s   %s", ...)` and its narrow variant: the five values
with the given gaps between them. -/
def Sprintf5 (gap1 gap2 gap3 gap4 : GoString) (v0 v1 v2 v3 v4 : GoString) : GoString :=
  v0 ++ gap1 ++ v1 ++ gap2 ++ v2 ++ gap3 ++ v3 ++ gap4 ++ v4

/-- The source's `recreateVarsLine`. An index expression out of range panics: `none`. -/
def recreateVarsLine (lineValues : List GoString) : Option GoString := do
  let v1 ← lineValues[1]?
  if v1.length = 6 then
    -- 2 space, 1 space, 2 spaces, 3 spaces
    let v0 ← lineValues[0]?
    let v1 ← lineValues[1]?
    let v2 ← lineValues[2]?
    let v3 ← lineValues[3]?
    let v4 ← lineValues[4]?
    pure (Sprintf5 (str "  ") (str " ") (str "  ") (str "   ") v0 v1 v2 v3 v4)
  else
    -- 1 space, 1 space, 2 spaces, 3 spaces
    let v0 ← lineValues[0]?
    let v1 ← lineValues[1]?
    let v2 ← lineValues[2]?
    let v3 ← lineValues[3]?
    let v4 ← lineValues[4]?
    pure (Sprintf5 (str " ") (str " ") (str "  ") (str "   ") v0 v1 v2 v3 v4)

/-- The body of the scanner loop of `generateSynspecInputFile`: the value of `toAppend`
for one scanned line, `none` when `recreateVarsLine` panics. -/
def toAppend (line : GoString) : Option GoString :=
  let collapsed := regexp.ReplaceAllString line (str " ")
  if strings.HasPrefix collapsed (str "TEFF") then
    recreateVarsLine (strings.Split collapsed 32)
  else if strings.HasPrefix collapsed (str "READ DECK6 72") then
    some (strings.Replace collapsed (str "READ DECK6 72") (str "READ DECK6 64") (-1))
  else
    some collapsed

/-- What a Go call can do: return a value, return an error, or end the process
(a panic or `log.Fatal`). -/
inductive Outcome (α : Type) where
  | ok (a : α)
  | err (e : GoError)
  | crash
  deriving DecidableEq

/-- One call of the walk function by `filepath.Walk`, with what the file system answers. -/
structure WalkEntry where
  /-- The value of `filepath.Base(path)`. -/
  base : GoString
  /-- The `info` argument: `none` when it is nil (the root could not be read),
  otherwise the value of `info.IsDir()`. -/
  info : Option Bool
  /-- Whether `os.Open(path)` fails. -/
  openFails : Bool
  /-- The lines `scanner.Scan()` yields for the file. -/
  lines : List GoString
  /-- The value of `scanner.Err()` after the loop. -/
  scanErr : Option GoError
  deriving DecidableEq

/-- The scanner loop: `contents += toAppend + "\n"` for every line; `none` on a panic. -/
def scanLoop : List GoString → GoString → Option GoString
  | [], contents => some contents
  | line :: rest, contents =>
    match toAppend line with
    | none => none
    | some out => scanLoop rest (contents ++ (out ++ str "\n"))

/-- The walk function of `generateSynspecInputFile` on one entry: the new `contents`. -/
def walkFn (modPrefix : GoString) (entry : WalkEntry) (contents : GoString) :
    Outcome GoString :=
  match entry.info with
  | none => .crash
  | some isDir =>
    if !isDir && strings.HasPrefix entry.base modPrefix then
      if entry.openFails then .crash
      else
        match scanLoop entry.lines contents with
        | none => .crash
        | some contents' =>
          match entry.scanErr with
          | some e => .err e
          | none => .ok contents'
    else .ok contents

/-- Go `filepath.Walk` with the walk function above: it stops at the first error. -/
def walk (modPrefix : GoString) : List WalkEntry → GoString → Outcome GoString
  | [], contents => .ok contents
  | entry :: rest, contents =>
    match walkFn modPrefix entry contents with
    | .ok contents' => walk modPrefix rest contents'
    | .err e => .err e
    | .crash => .crash

/-- The source's `generateSynspecInputFile(path, modPrefix, outFile)`; the tree under
`path` is given by the calls `filepath.Walk` makes. -/
def generateSynspecInputFile (tree : List WalkEntry) (modPrefix _outFile : GoString) :
    Outcome GoString :=
  match walk modPrefix tree [] with
  | .ok contents => .ok contents
  | .err _ => .err (str "error while walking to path")
  | .crash => .crash

/-- The maximal runs of bytes of one kind (whitespace or not) of a line, in order. -/
def runs : GoString → List GoString
  | [] => []
  | b :: rest =>
    match runs rest with
    | [] => [[b]]
    | r :: rs =>
      if r.head?.map regexp.isSpace = some (regexp.isSpace b) then (b :: r) :: rs
      else [b] :: r :: rs

/-- A run of whitespace becomes one space, any other run stays as it is. -/
def squeezeRun (r : GoString) : GoString :=
  if r.all regexp.isSpace then str " " else r

/-- The line with every maximal run of whitespace replaced by one space, as the
specification words it. -/
def collapseRuns (line : GoString) : GoString := ((runs line).map squeezeRun).flatten

/-- The lines the reformatter scans: those of the regular files of the walk whose base
name starts with `modPrefix`, in the order of the walk. -/
def scannedLines (modPrefix : GoString) (tree : List WalkEntry) : List GoString :=
  (tree.filter (fun e => e.info = some false && strings.HasPrefix e.base modPrefix)).flatMap
    (fun e => e.lines)

namespace strings

/-- Go `strings.Contains(s, substr)`. -/
def Contains (s substr : GoString) : Bool := s.tails.any (fun t => substr.isPrefixOf t)

end strings

/-! ## The template renderer

`parseTemplate` hands the template to Go's `text/template` with its default options.
What the library does is modelled for the templates made of text and of actions that
print one field of the data, `{{.Name}}`, with or without blanks around the field. For
every other template text the answers of the library are taken as they come: they are a
parameter, `template.Library`. -/

namespace template

/-- The data the source passes: a `map[string]interface{}` whose values are strings. -/
abbrev Vars := List (GoString × GoString)

/-- What `text/template` answers for a template text outside the modelled fragment. -/
structure Library where
  /-- The error `template.New("tmpl").Parse(text)` returns, `none` when it is nil. -/
  Parse : GoString → Option GoError
  /-- What `tmpl.Execute(&buf, vars)` does for a text that parses: the bytes written to
  the buffer, or the error. -/
  Execute : GoString → Vars → Except GoError GoString

/-- One node of a parsed template of the fragment: text, or the action that prints a
field. -/
inductive Node where
  | text (s : GoString)
  | field (name : GoString)
  deriving DecidableEq

/-- A blank inside an action: a space or a tab. -/
def isBlank (b : UInt8) : Bool := b == 32 || b == 9

/-- The first byte of an identifier: an ASCII letter or the underscore. -/
def isIdentStart (b : UInt8) : Bool := b == 95 || (65 ≤ b && b ≤ 90) || (97 ≤ b && b ≤ 122)

/-- A later byte of an identifier: an ASCII letter, a digit or the underscore. -/
def isIdentRest (b : UInt8) : Bool := isIdentStart b || (48 ≤ b && b ≤ 57)

/-- The action whose text between the delimiters is `body`, when it is `.Name` with
blanks before and after it and nothing else. -/
def fieldAction (body : GoString) : Option Node :=
  match body.dropWhile isBlank with
  | dot :: c :: rest =>
    if dot = 46 ∧ isIdentStart c = true ∧
        ((c :: rest).dropWhile isIdentRest).all isBlank = true then
      some (.field ((c :: rest).takeWhile isIdentRest))
    else none
  | _ => none

/-- The states of the lexer: in text, in text after one left brace, in an action, in an
action after one right brace. -/
inductive Lex where
  | text
  | leftBrace
  | action
  | rightBrace
  deriving DecidableEq

/-- The lexer and parser on the fragment: text up to the next left delimiter (two left
braces), then the action up to the right delimiter (two right braces). `acc` is the text
or action body read so far. The answer is `none` when the text is outside the fragment:
an action that is not closed, or that is not the printing of one field. -/
def scan : Lex → GoString → List Node → GoString → Option (List Node)
  | .text, acc, nodes, [] => some (nodes ++ [.text acc])
  | .leftBrace, acc, nodes, [] => some (nodes ++ [.text (acc ++ [123])])
  | .action, _, _, [] => none
  | .rightBrace, _, _, [] => none
  | .text, acc, nodes, b :: rest =>
    if b = 123 then scan .leftBrace acc nodes rest else scan .text (acc ++ [b]) nodes rest
  | .leftBrace, acc, nodes, b :: rest =>
    if b = 123 then scan .action [] (nodes ++ [.text acc]) rest
    else scan .text (acc ++ [123, b]) nodes rest
  | .action, acc, nodes, b :: rest =>
    if b = 125 then scan .rightBrace acc nodes rest else scan .action (acc ++ [b]) nodes rest
  | .rightBrace, acc, nodes, b :: rest =>
    if b = 125 then
      match fieldAction acc with
      | some node => scan .text [] (nodes ++ [node]) rest
      | none => none
    else none

/-- The nodes of a template text of the fragment, `none` for any other text. -/
def fragment (text : GoString) : Option (List Node) := scan .text [] [] text

/-- A parsed template: one of the fragment, by its nodes, or another one, by its text. -/
inductive Template where
  | nodes (ns : List Node)
  | other (text : GoString)
  deriving DecidableEq

/-- Go `template.New("tmpl").Parse(text)`. -/
def Parse (lib : Library) (text : GoString) : Except GoError Template :=
  match fragment text with
  | some ns => .ok (.nodes ns)
  | none =>
    match lib.Parse text with
    | some err => .error err
    | none => .ok (.other text)

/-- What executing one node writes. With the default option `missingkey=default`, a key
that is not in the map is no error: it prints as `<no value>`. -/
def execNode (vars : Vars) : Node → GoString
  | .text s => s
  | .field name =>
    match vars.lookup name with
    | some value => value
    | none => str "<no value>"

/-- Go `tmpl.Execute(&buf, vars)`: the bytes written to the buffer, or the error. -/
def Execute (lib : Library) (tmpl : Template) (vars : Vars) : Except GoError GoString :=
  match tmpl with
  | .nodes ns => .ok ((ns.map (execNode vars)).flatten)
  | .other text => lib.Execute text vars

/-- A piece of a template text of the fragment: text, or the action that prints the
field `name`, with the blanks written before and after the field. -/
inductive Piece where
  | text (s : GoString)
  | var (left name right : GoString)
  deriving DecidableEq

/-- The template text of a piece. -/
def Piece.source : Piece → GoString
  | .text s => s
  | .var left name right =>
    str "\x7b\x7b" ++ left ++ str "." ++ name ++ right ++ str "\x7d\x7d"

/-- Text in which no left brace is followed by a left brace or by the end. -/
def noOpen : GoString → Bool
  | [] => true
  | b :: rest =>
    if b = 123 then
      match rest with
      | [] => false
      | c :: _ => c != 123 && noOpen rest
    else noOpen rest

/-- An identifier: a first byte and later bytes as above. -/
def isIdent : GoString → Bool
  | [] => false
  | c :: rest => isIdentStart c && rest.all isIdentRest

/-- A piece as the fragment has them: text without a left delimiter in it or begun at
its end, or a field whose name is an identifier, between blanks. -/
def Piece.wellFormed : Piece → Bool
  | .text s => noOpen s
  | .var left name right => left.all isBlank && isIdent name && right.all isBlank

/-- The template text of a list of pieces. -/
def source (pieces : List Piece) : GoString := (pieces.map Piece.source).flatten

end template

/-- The source's `parseTemplate(data, vars)`. -/
def parseTemplate (lib : template.Library) (data : GoString) (vars : template.Vars) :
    Except GoError GoString :=
  match template.Parse lib data with
  | .error err => .error (str "error while parsing the template's data: " ++ err)
  | .ok tmpl =>
    match template.Execute lib tmpl vars with
    | .error err => .error (str "error while executing the template: " ++ err)
    | .ok tmplBytes => .ok tmplBytes

/-! ## The executor -/

namespace calculationsv1

/-- One step of a calculation (`calculationsv1.Step`). -/
structure Step where
  Command : GoString
  Args : List GoString
  Status : GoString
  deriving DecidableEq

/-- A calculation as the executor reads it: its name and `Spec.Steps`. (`Spec.Teff` and
`Spec.LogG` only reach the generated files.) -/
structure Calculation where
  Name : GoString
  Steps : List Step
  deriving DecidableEq

end calculationsv1

/-- The source's `step`. -/
structure step where
  command : GoString
  args : List GoString
  status : GoString
  deriving DecidableEq

/-- The source's `execution`. -/
structure execution where
  calculationName : GoString
  steps : List step
  deriving DecidableEq

/-- The source's `createExecution`. -/
def createExecution (calcName : GoString) (steps : List calculationsv1.Step) : execution :=
  steps.foldl
    (fun ex calcStep =>
      { ex with steps := ex.steps ++
          [{ command := calcStep.Command, args := calcStep.Args, status := calcStep.Status }] })
    { calculationName := calcName, steps := [] }

/-- The source's `Result`. -/
structure Result where
  CalcName : GoString
  Step : Nat
  Status : GoString
  StdoutStderr : GoString
  CommandError : Option GoError
  deriving DecidableEq

/-- The fields of the source's `Executor` that are configuration. -/
structure Executor where
  nfsPath : GoString
  atlasControlFiles : GoString
  atlasDataFiles : GoString
  kuruzModelTemplateFile : GoString
  synspecInputTemplateFile : GoString
  deriving DecidableEq

/-- What the operating system answers while one calculation is processed. -/
structure World where
  /-- The result of `unix.Setrlimit`. -/
  Setrlimit : Option GoError
  /-- The error of `os.Stat(calcPath)`. -/
  Stat : Option GoError
  /-- The result of `os.MkdirAll(calcPath, os.ModePerm)`. -/
  MkdirAll : Option GoError
  /-- The result of `filepath.Walk(path, ...)` in `createSymbolicLinks`, by source path. -/
  Walk : GoString → Option GoError
  /-- The result of `e.generateInputFile(...)`. -/
  generateInputFile : Option GoError
  /-- The tree under `calcPath` when the reformatter walks it. -/
  tree : List WalkEntry
  /-- The result of `ioutil.WriteFile(".../fort.8", contents, 0777)`. -/
  WriteFile : GoString → Option GoError
  /-- The result of `generateSynspecInputRuntimeFile(...)`. -/
  generateSynspecInputRuntimeFile : Option GoError
  /-- The result of `cmd.CombinedOutput()` for the command of the step at an index,
  given the command and its one argument. -/
  CombinedOutput : Nat → GoString → GoString → GoString × Option GoError

/-- What the executor does that others can see. -/
inductive Event where
  /-- The command of the step at `index` was run. -/
  | command (index : Nat) (name : GoString) (arg : GoString)
  /-- A result was sent on `stepUpdaterChan`. -/
  | result (r : Result)
  deriving DecidableEq

/-- The step an event belongs to. -/
def Event.index : Event → Nat
  | .command index _ _ => index
  | .result r => r.Step

/-- The results sent, in order. -/
def results (trace : List Event) : List Result :=
  trace.filterMap (fun ev => match ev with
    | .result r => some r
    | .command _ _ _ => none)

/-- The indices of the steps whose command was run, in order. -/
def executed (trace : List Event) : List Nat :=
  trace.filterMap (fun ev => match ev with
    | .command index _ _ => some index
    | .result _ => none)

/-- The source's `setUnlimitStack`. -/
def setUnlimitStack (w : World) : Option GoError :=
  match w.Setrlimit with
  | some err => some (str "Error Setting Rlimit " ++ err)
  | none => none

/-- The source's `createSymbolicLinks`: the first walk that fails ends it. -/
def createSymbolicLinks (w : World) : List GoString → Option GoError
  | [] => none
  | path :: rest =>
    match w.Walk path with
    | some err => some err
    | none => createSymbolicLinks w rest

/-- The block `if index == 2` of `Run`: the reformatter, the write of `fort.8`, the
runtime input file. An error makes the loop break. -/
def generateSynspec (w : World) : Outcome Unit :=
  match generateSynspecInputFile w.tree (str "t10000_400_72_strat.mod") (str "fort.8") with
  | .crash => .crash
  | .err e => .err e
  | .ok contents =>
    match w.WriteFile contents with
    | some err => .err err
    | none =>
      match w.generateSynspecInputRuntimeFile with
      | some err => .err err
      | none => .ok ()

/-- What one pass of the loop of `Run` did: the events, and whether the process ended. -/
structure Pass where
  trace : List Event
  crashed : Bool
  deriving DecidableEq

/-- The result the loop body builds for the step at `index`. -/
def stepResult (w : World) (calcName : GoString) (index : Nat) (s : step) : Result :=
  let out := w.CombinedOutput index s.command (strings.Join s.args (str " "))
  { CalcName := calcName
    Step := index
    StdoutStderr := out.1
    Status := if out.2.isSome then str "Failed" else str "Completed"
    CommandError := out.2 }

/-- What the loop body does once the input files are there: it runs the command of the
step and sends the result. -/
def stepEvents (w : World) (calcName : GoString) (index : Nat) (s : step) : List Event :=
  [.command index s.command (strings.Join s.args (str " ")),
    .result (stepResult w calcName index s)]

/-- The loop `for index, step := range execution.steps` of `Run`, from `index` on. -/
def runSteps (w : World) (calcName : GoString) : Nat → List step → Pass
  | _, [] => ⟨[], false⟩
  | index, s :: rest =>
    if s.status.length ≠ 0 then
      runSteps w calcName (index + 1) rest
    else if index = 0 ∧ w.generateInputFile.isSome then
      ⟨[], false⟩
    else
      match (if index = 2 then generateSynspec w else .ok ()) with
      | .crash => ⟨[], true⟩
      | .err _ => ⟨[], false⟩
      | .ok _ =>
        let next := runSteps w calcName (index + 1) rest
        ⟨stepEvents w calcName index s ++ next.trace, next.crashed⟩

/-- The body of the loop of `Run` for one calculation received on `executeChan`. -/
def Executor.pass (e : Executor) (w : World) (calculation : calculationsv1.Calculation) :
    Pass :=
  if (setUnlimitStack w).isSome then ⟨[], false⟩
  else if w.Stat.isSome ∧ w.MkdirAll.isSome then ⟨[], false⟩
  else if (createSymbolicLinks w [e.atlasControlFiles, e.atlasDataFiles]).isSome then
    ⟨[], false⟩
  else
    runSteps w calculation.Name 0 (createExecution calculation.Name calculation.Steps).steps

/-- The source's `Run` on the calculations that arrive on `executeChan`, each with the
world it is processed in: the events up to the moment it waits for the next one. -/
def Executor.Run (e : Executor) : List (World × calculationsv1.Calculation) → List Event
  | [] => []
  | (w, calculation) :: rest =>
    let p := e.pass w calculation
    if p.crashed then p.trace else p.trace ++ Executor.Run e rest

/-- The world in which no input generation fails, everything else as in `w`. -/
def World.generationSucceeds (w : World) : World :=
  { w with
    generateInputFile := none
    tree := []
    WriteFile := fun _ => none
    generateSynspecInputRuntimeFile := none }

/-! ## Sample inputs -/

/-- A sample executor configuration. -/
def sampleExecutor : Executor :=
  { nfsPath := str "/var/tmp/nfs"
    atlasControlFiles := str "/var/tmp/nfs/atlas-control-files"
    atlasDataFiles := str "/var/tmp/nfs/atlas-data-files"
    kuruzModelTemplateFile := str "t10000_400_72.mod.7011870916.tmpl"
    synspecInputTemplateFile := str "input_tlusty_fortfive.tmpl" }

/-- A sample calculation of three steps, none of them run yet. -/
def sampleCalculation : calculationsv1.Calculation :=
  { Name := str "calc-xyz"
    Steps :=
      [⟨str "atlas12_ada", [str "s"], []⟩,
        ⟨str "atlas12_ada", [str "r"], []⟩,
        ⟨str "synspec49", [str "<", str "input_tlusty_fortfive"], []⟩] }

/-- The sample calculation after a run in which its second step was completed. -/
def resumedCalculation : calculationsv1.Calculation :=
  { Name := str "calc-xyz"
    Steps :=
      [⟨str "atlas12_ada", [str "s"], []⟩,
        ⟨str "atlas12_ada", [str "r"], str "Completed"⟩,
        ⟨str "synspec49", [str "<", str "input_tlusty_fortfive"], []⟩] }

/-- A world in which nothing fails and every command exits with zero. -/
def quietWorld : World :=
  { Setrlimit := none
    Stat := none
    MkdirAll := none
    Walk := fun _ => none
    generateInputFile := none
    tree := []
    WriteFile := fun _ => none
    generateSynspecInputRuntimeFile := none
    CombinedOutput := fun _ _ _ => (str "done", none) }

/-- The quiet world, but the command of the step at index 1 exits with status 1. -/
def failingWorld : World :=
  { quietWorld with
    CombinedOutput := fun index _ _ =>
      if index = 1 then (str "segmentation fault", some (str "exit status 1"))
      else (str "done", none) }

/-- The quiet world, but the stack limit cannot be raised. -/
def noStackWorld : World :=
  { quietWorld with Setrlimit := some (str "operation not permitted") }

/-- The quiet world, but `fort.8` cannot be written. -/
def readOnlyWorld : World :=
  { quietWorld with WriteFile := fun _ => some (str "read-only file system") }

end executor

namespace executor

/-! ## Facts about the library functions -/

theorem str_space : str " " = [32] := by decide

theorem str_newline : str "\n" = [10] := by decide

theorem isSpace_space : regexp.isSpace 32 = true := by decide

theorem ne_space_of_not_isSpace {b : UInt8} (h : regexp.isSpace b = false) : b ≠ 32 := by
  intro hb
  rw [hb] at h
  exact absurd h (by decide)

theorem replaceScan_true_head (s : GoString) :
    (regexp.replaceScan [32] true s).head? ≠ some 32 := by
  induction s with
  | nil => simp [regexp.replaceScan]
  | cons b rest ih =>
    by_cases hb : regexp.isSpace b = true
    · simpa [regexp.replaceScan, hb] using ih
    · have hb' : regexp.isSpace b = false := by simpa using hb
      simp only [regexp.replaceScan, hb', Bool.false_eq_true, if_false, List.head?_cons]
      intro h
      exact ne_space_of_not_isSpace hb' (Option.some.inj h)

/-- Once a whitespace byte is read the scan is in a match, whatever it was before. -/
theorem replaceScan_space_cons (a : UInt8) (t : GoString) (ha : regexp.isSpace a = true) :
    regexp.replaceScan [32] false (a :: t) = 32 :: regexp.replaceScan [32] true t ∧
    regexp.replaceScan [32] true (a :: t) = regexp.replaceScan [32] true t := by
  constructor <;> simp [regexp.replaceScan, ha]

/-- Before a byte that is no whitespace, and at the end, the flag is of no account. -/
theorem replaceScan_flag_irrelevant (s : GoString)
    (h : ∀ a, s.head? = some a → regexp.isSpace a = false) :
    regexp.replaceScan [32] true s = regexp.replaceScan [32] false s := by
  cases s with
  | nil => simp [regexp.replaceScan]
  | cons a t =>
    have ha := h a rfl
    simp [regexp.replaceScan, ha]

/-- In the result of the scan, the only whitespace byte is the space. -/
theorem replaceScan_only_space (flag : Bool) (s : GoString) :
    ∀ b ∈ regexp.replaceScan [32] flag s, regexp.isSpace b = true → b = 32 := by
  induction s generalizing flag with
  | nil => simp [regexp.replaceScan]
  | cons a t ih =>
    intro b hb hsp
    by_cases ha : regexp.isSpace a = true
    · cases flag with
      | true =>
        rw [(replaceScan_space_cons a t ha).2] at hb
        exact ih true b hb hsp
      | false =>
        rw [(replaceScan_space_cons a t ha).1] at hb
        rcases List.mem_cons.mp hb with h | h
        · exact h
        · exact ih true b h hsp
    · have ha' : regexp.isSpace a = false := by simpa using ha
      simp only [regexp.replaceScan, ha', Bool.false_eq_true, if_false] at hb
      rcases List.mem_cons.mp hb with h | h
      · rw [h, ha'] at hsp
        exact absurd hsp (by decide)
      · exact ih false b h hsp

/-- No two spaces are adjacent in the result of the scan. -/
theorem replaceScan_chain (flag : Bool) (s : GoString) :
    List.Chain' (fun a b : UInt8 => ¬ (a = 32 ∧ b = 32)) (regexp.replaceScan [32] flag s) := by
  induction s generalizing flag with
  | nil => simp [regexp.replaceScan]
  | cons a t ih =>
    by_cases ha : regexp.isSpace a = true
    · cases flag with
      | true =>
        rw [(replaceScan_space_cons a t ha).2]
        exact ih true
      | false =>
        rw [(replaceScan_space_cons a t ha).1]
        rw [List.chain'_cons']
        refine ⟨?_, ih true⟩
        intro y hy hxy
        exact replaceScan_true_head t (by rw [hy, hxy.2])
    · have ha' : regexp.isSpace a = false := by simpa using ha
      simp only [regexp.replaceScan, ha', Bool.false_eq_true, if_false]
      rw [List.chain'_cons']
      refine ⟨?_, ih false⟩
      intro y _ hxy
      exact ne_space_of_not_isSpace ha' hxy.1

/-- A string without whitespace other than single spaces is left as it is by the scan. -/
theorem replaceScan_fixed (flag : Bool) (s : GoString)
    (honly : ∀ b ∈ s, regexp.isSpace b = true → b = 32)
    (hchain : List.Chain' (fun a b : UInt8 => ¬ (a = 32 ∧ b = 32)) s)
    (hflag : flag = true → s.head? ≠ some 32) :
    regexp.replaceScan [32] flag s = s := by
  induction s generalizing flag with
  | nil => simp [regexp.replaceScan]
  | cons a t ih =>
    rw [List.chain'_cons'] at hchain
    have honly' : ∀ b ∈ t, regexp.isSpace b = true → b = 32 :=
      fun b hb => honly b (List.mem_cons_of_mem _ hb)
    by_cases ha : regexp.isSpace a = true
    · have ha32 : a = 32 := honly a (List.mem_cons_self _ _) ha
      cases flag with
      | true => exact absurd (by rw [ha32]; rfl) (hflag rfl)
      | false =>
        rw [(replaceScan_space_cons a t ha).1, ih true honly' hchain.2, ha32]
        intro _ hy
        exact hchain.1 32 hy ⟨ha32, rfl⟩
    · have ha' : regexp.isSpace a = false := by simpa using ha
      simp only [regexp.replaceScan, ha', Bool.false_eq_true, if_false]
      rw [ih false honly' hchain.2 (by intro h; cases h)]

/-! ## The runs of a line -/

theorem runs_cons_head (b : UInt8) (rest : GoString) :
    ∃ r rs, runs (b :: rest) = (b :: r) :: rs := by
  rw [runs]
  cases h : runs rest with
  | nil => exact ⟨[], [], rfl⟩
  | cons r rs =>
    by_cases hc : r.head?.map regexp.isSpace = some (regexp.isSpace b)
    · exact ⟨r, rs, by simp [hc]⟩
    · exact ⟨[], r :: rs, by simp [hc]⟩

/-- The runs of a line, put together again, are the line. -/
theorem runs_flatten (s : GoString) : (runs s).flatten = s := by
  induction s with
  | nil => simp [runs]
  | cons b rest ih =>
    rw [runs]
    cases h : runs rest with
    | nil =>
      rw [h] at ih
      simp at ih
      simp [← ih]
    | cons r rs =>
      rw [h] at ih
      by_cases hc : r.head?.map regexp.isSpace = some (regexp.isSpace b)
      · simp [hc, ← ih]
      · simp [hc, ← ih]

/-- Every run is non-empty and of one kind. -/
theorem runs_uniform (s : GoString) :
    ∀ r ∈ runs s, r ≠ [] ∧ ∀ x ∈ r, ∀ y ∈ r, regexp.isSpace x = regexp.isSpace y := by
  induction s with
  | nil => simp [runs]
  | cons b rest ih =>
    rw [runs]
    cases h : runs rest with
    | nil => simp
    | cons r rs =>
      rw [h] at ih
      have hr := ih r (List.mem_cons_self _ _)
      have hrs : ∀ q ∈ rs, q ≠ [] ∧ ∀ x ∈ q, ∀ y ∈ q, regexp.isSpace x = regexp.isSpace y :=
        fun q hq => ih q (List.mem_cons_of_mem _ hq)
      by_cases hc : r.head?.map regexp.isSpace = some (regexp.isSpace b)
      · simp only [hc, if_true]
        intro q hq
        rcases List.mem_cons.mp hq with hq | hq
        · subst hq
          refine ⟨by simp, ?_⟩
          cases r with
          | nil => exact absurd rfl hr.1
          | cons a t =>
            simp only [List.head?_cons, Option.map_some', Option.some.injEq] at hc
            have hall : ∀ x ∈ b :: a :: t, regexp.isSpace x = regexp.isSpace b := by
              intro x hx
              rcases List.mem_cons.mp hx with hx | hx
              · rw [hx]
              · rw [← hc]
                exact hr.2 x hx a (List.mem_cons_self _ _)
            intro x hx y hy
            rw [hall x hx, hall y hy]
        · exact hrs q hq
      · simp only [hc, if_false]
        intro q hq
        rcases List.mem_cons.mp hq with hq | hq
        · subst hq
          simp
        · exact ih q hq

/-- Runs are maximal: two runs that follow each other are of different kinds. -/
theorem runs_maximal (s : GoString) :
    List.Chain' (fun r q : GoString =>
      r.getLast?.map regexp.isSpace ≠ q.head?.map regexp.isSpace) (runs s) := by
  induction s with
  | nil => simp [runs]
  | cons b rest ih =>
    rw [runs]
    cases h : runs rest with
    | nil => simp
    | cons r rs =>
      rw [h] at ih
      have hne : r ≠ [] := ((runs_uniform rest) r (by rw [h]; exact List.mem_cons_self _ _)).1
      by_cases hc : r.head?.map regexp.isSpace = some (regexp.isSpace b)
      · simp only [hc, if_true]
        rw [List.chain'_cons'] at ih ⊢
        refine ⟨?_, ih.2⟩
        intro q hq
        have := ih.1 q hq
        cases r with
        | nil => exact absurd rfl hne
        | cons a t => rwa [List.getLast?_cons_cons]
      · simp only [hc, if_false]
        rw [List.chain'_cons']
        refine ⟨?_, ih⟩
        intro q hq
        have hq' : r = q := by simpa using hq
        subst hq'
        simp only [List.getLast?_singleton, Option.map_some']
        exact fun h => hc h.symm

theorem squeezeRun_uniform (x : UInt8) (r : GoString)
    (h : ∀ y ∈ r, regexp.isSpace y = regexp.isSpace x) :
    squeezeRun (x :: r) = if regexp.isSpace x = true then [32] else x :: r := by
  unfold squeezeRun
  by_cases hx : regexp.isSpace x = true
  · have hall : (x :: r).all regexp.isSpace = true := by
      rw [List.all_eq_true]
      intro y hy
      rcases List.mem_cons.mp hy with hy | hy
      · rw [hy, hx]
      · rw [h y hy, hx]
    rw [hall, str_space]
    simp [hx]
  · have hall : (x :: r).all regexp.isSpace = false := by
      simp only [List.all_cons, Bool.and_eq_false_imp]
      intro h'
      exact absurd h' hx
    rw [hall]
    simp [hx]

/-- The scan of `ReplaceAllString` computes what the specification describes: every
maximal run of whitespace is replaced by one space. -/
theorem ReplaceAllString_eq_collapseRuns (s : GoString) :
    regexp.ReplaceAllString s (str " ") = collapseRuns s := by
  unfold regexp.ReplaceAllString collapseRuns
  rw [str_space]
  induction s with
  | nil => simp [regexp.replaceScan, runs]
  | cons b rest ih =>
    cases rest with
    | nil =>
      have h1 : runs [b] = [[b]] := by simp [runs]
      rw [h1]
      simp only [List.map_cons, List.map_nil, List.flatten_cons, List.flatten_nil,
        List.append_nil]
      rw [squeezeRun_uniform b [] (by simp)]
      by_cases hb : regexp.isSpace b = true <;> simp [regexp.replaceScan, hb]
    | cons a t =>
      obtain ⟨r, rs, hruns⟩ := runs_cons_head a t
      have hun := (runs_uniform (a :: t)) (a :: r) (by rw [hruns]; exact List.mem_cons_self _ _)
      have hr : ∀ y ∈ r, regexp.isSpace y = regexp.isSpace a :=
        fun y hy => hun.2 y (List.mem_cons_of_mem _ hy) a (List.mem_cons_self _ _)
      rw [hruns] at ih
      simp only [List.map_cons, List.flatten_cons] at ih
      rw [squeezeRun_uniform a r hr] at ih
      have hstep : runs (b :: a :: t) =
          if regexp.isSpace a = regexp.isSpace b then (b :: a :: r) :: rs
          else [b] :: (a :: r) :: rs := by
        rw [runs, hruns]
        simp
      rw [hstep]
      by_cases hb : regexp.isSpace b = true
      · by_cases ha : regexp.isSpace a = true
        · have hbr : ∀ y ∈ a :: r, regexp.isSpace y = regexp.isSpace b := by
            intro y hy
            rcases List.mem_cons.mp hy with hy | hy
            · rw [hy, ha, hb]
            · rw [hr y hy, ha, hb]
          simp only [ha, hb, if_true, List.map_cons, List.flatten_cons]
          rw [squeezeRun_uniform b (a :: r) hbr]
          rw [(replaceScan_space_cons b (a :: t) hb).1, (replaceScan_space_cons a t ha).2]
          rw [(replaceScan_space_cons a t ha).1] at ih
          simp only [ha, hb, if_true] at ih ⊢
          exact ih
        · have ha' : regexp.isSpace a = false := by simpa using ha
          simp only [ha', hb, Bool.false_eq_true, if_false, List.map_cons, List.flatten_cons]
          rw [squeezeRun_uniform b [] (by simp), squeezeRun_uniform a r hr]
          rw [(replaceScan_space_cons b (a :: t) hb).1,
            replaceScan_flag_irrelevant (a :: t) (by intro x hx; simp at hx; rw [← hx, ha']), ih]
          simp [ha', hb]
      · have hb' : regexp.isSpace b = false := by simpa using hb
        have hscan : regexp.replaceScan [32] false (b :: a :: t) =
            b :: regexp.replaceScan [32] false (a :: t) := by
          simp [regexp.replaceScan, hb']
        rw [hscan, ih]
        by_cases ha : regexp.isSpace a = true
        · simp only [ha, hb', Bool.true_eq_false, if_false, if_true, List.map_cons,
            List.flatten_cons]
          rw [squeezeRun_uniform b [] (by simp), squeezeRun_uniform a r hr]
          simp [ha, hb']
        · have ha' : regexp.isSpace a = false := by simpa using ha
          have hbr : ∀ y ∈ a :: r, regexp.isSpace y = regexp.isSpace b := by
            intro y hy
            rcases List.mem_cons.mp hy with hy | hy
            · rw [hy, ha', hb']
            · rw [hr y hy, ha', hb']
          simp only [ha', hb', Bool.false_eq_true, if_false, if_true, List.map_cons,
            List.flatten_cons]
          rw [squeezeRun_uniform b (a :: r) hbr]
          simp [hb']

/-! ## Facts about `strings.Split` -/

theorem Split_ne_nil (s : GoString) (sep : UInt8) : strings.Split s sep ≠ [] := by
  cases s with
  | nil => simp [strings.Split]
  | cons b rest =>
    rw [strings.Split]
    by_cases hb : b = sep
    · simp [hb]
    · rw [if_neg hb]
      cases strings.Split rest sep <;> simp

/-- There is one piece more than there are separators. -/
theorem Split_length (s : GoString) (sep : UInt8) :
    (strings.Split s sep).length = s.count sep + 1 := by
  induction s with
  | nil => simp [strings.Split]
  | cons b rest ih =>
    rw [strings.Split]
    by_cases hb : b = sep
    · rw [if_pos hb, List.length_cons, ih, hb, List.count_cons_self]
    · rw [if_neg hb, List.count_cons_of_ne (fun h => hb h.symm)]
      cases hsplit : strings.Split rest sep with
      | nil => exact absurd hsplit (Split_ne_nil rest sep)
      | cons tok toks =>
        rw [hsplit] at ih
        simpa using ih

/-- The pieces, joined with the separator, are the string. -/
theorem Split_Join (s : GoString) (sep : UInt8) :
    strings.Join (strings.Split s sep) [sep] = s := by
  induction s with
  | nil => simp [strings.Split, strings.Join]
  | cons b rest ih =>
    rw [strings.Split]
    by_cases hb : b = sep
    · rw [if_pos hb]
      cases hsplit : strings.Split rest sep with
      | nil => exact absurd hsplit (Split_ne_nil rest sep)
      | cons tok toks =>
        rw [hsplit] at ih
        rw [strings.Join, ih, hb]
        · simp
        · intro h
          cases h
    · rw [if_neg hb]
      cases hsplit : strings.Split rest sep with
      | nil => exact absurd hsplit (Split_ne_nil rest sep)
      | cons tok toks =>
        rw [hsplit] at ih
        cases toks with
        | nil =>
          simp only [strings.Join] at ih ⊢
          rw [ih]
        | cons t2 ts =>
          simp only [strings.Join, List.cons_append, List.append_assoc] at ih ⊢
          rw [ih]

/-! ## Facts about `strings.Replace` and `recreateVarsLine` -/

theorem replaceScan_skip (old new : GoString) (limit : Option Nat) (pre rest : GoString) :
    strings.replaceScan old new limit pre.length (pre ++ rest) =
      strings.replaceScan old new limit 0 rest := by
  induction pre with
  | nil => simp
  | cons a t ih => simpa [strings.replaceScan] using ih

/-- An occurrence of `old` at the start is replaced and the scan goes on behind it. -/
theorem Replace_occurrence (o : UInt8) (os new rest : GoString) :
    strings.Replace ((o :: os) ++ rest) (o :: os) new (-1) =
      new ++ strings.Replace rest (o :: os) new (-1) := by
  unfold strings.Replace
  have hneg : ((-1 : Int) < 0) := by decide
  simp only [hneg, if_true]
  have hpre : (o :: os).isPrefixOf (o :: (os ++ rest)) = true := by
    rw [List.isPrefixOf_iff_prefix]
    exact ⟨rest, rfl⟩
  have hlen : (o :: os).length - 1 = os.length := by simp
  rw [List.cons_append, strings.replaceScan]
  simp only [hpre, ne_eq, reduceCtorEq, not_false_eq_true, and_self, if_true, Option.map_none',
    hlen]
  rw [replaceScan_skip]

/-- Where no occurrence of `old` starts, the byte is kept. -/
theorem Replace_other (b : UInt8) (rest old new : GoString)
    (h : old.isPrefixOf (b :: rest) = false) :
    strings.Replace (b :: rest) old new (-1) = b :: strings.Replace rest old new (-1) := by
  unfold strings.Replace
  have hneg : ((-1 : Int) < 0) := by decide
  simp only [hneg, if_true]
  rw [strings.replaceScan]
  simp [h]

theorem recreateVarsLine_cons5 (t0 t1 t2 t3 t4 : GoString) (more : List GoString) :
    recreateVarsLine (t0 :: t1 :: t2 :: t3 :: t4 :: more) =
      some (if t1.length = 6 then
          Sprintf5 (str "  ") (str " ") (str "  ") (str "   ") t0 t1 t2 t3 t4
        else Sprintf5 (str " ") (str " ") (str "  ") (str "   ") t0 t1 t2 t3 t4) := by
  unfold recreateVarsLine
  by_cases h : t1.length = 6 <;> simp [h]

theorem recreateVarsLine_short (l : List GoString) (h : l.length < 5) :
    recreateVarsLine l = none := by
  rcases l with _ | ⟨a, _ | ⟨b, _ | ⟨c, _ | ⟨d, _ | ⟨e, rest⟩⟩⟩⟩⟩
  · simp [recreateVarsLine]
  · simp [recreateVarsLine]
  · unfold recreateVarsLine
    by_cases hb : b.length = 6 <;> simp [hb]
  · unfold recreateVarsLine
    by_cases hb : b.length = 6 <;> simp [hb]
  · unfold recreateVarsLine
    by_cases hb : b.length = 6 <;> simp [hb]
  · simp at h
    omega

/-! ## The walk of the reformatter -/

/-- The scanner loop ends normally exactly when every line is transformed, and then it
has appended the transformed lines, each followed by a newline. -/
theorem scanLoop_eq_some (lines : List GoString) (c c' : GoString) :
    scanLoop lines c = some c' ↔
      ∃ outs : List GoString, lines.map toAppend = outs.map some ∧
        c' = c ++ (outs.map (fun out => out ++ str "\n")).flatten := by
  induction lines generalizing c with
  | nil =>
    simp only [scanLoop, Option.some.injEq, List.map_nil]
    constructor
    · intro h
      exact ⟨[], rfl, by simp [h]⟩
    · rintro ⟨outs, h1, h2⟩
      have : outs = [] := by
        cases outs with
        | nil => rfl
        | cons a t => simp at h1
      subst this
      simp [h2]
  | cons line rest ih =>
    rw [scanLoop]
    cases hl : toAppend line with
    | none =>
      simp only [List.map_cons, hl]
      constructor
      · intro h
        cases h
      · rintro ⟨outs, h1, _⟩
        cases outs with
        | nil => simp at h1
        | cons a t => simp at h1
    | some out =>
      simp only [List.map_cons, hl]
      rw [ih]
      constructor
      · rintro ⟨outs, h1, h2⟩
        exact ⟨out :: outs, by simp [h1], by simp [h2]⟩
      · rintro ⟨outs, h1, h2⟩
        cases outs with
        | nil => simp at h1
        | cons a t =>
          simp only [List.map_cons, List.cons.injEq, Option.some.injEq] at h1
          refine ⟨t, h1.2, ?_⟩
          rw [h2, h1.1]
          simp

/-- The walk returns contents exactly when every entry could be read, every scanned file
could be opened and scanned to its end, and every scanned line is transformed; the
contents are then the transformed lines in the order of the walk, each followed by a
newline. -/
theorem walk_eq_ok (modPrefix : GoString) (tree : List WalkEntry) (c c' : GoString) :
    walk modPrefix tree c = .ok c' ↔
      (∀ e ∈ tree, e.info ≠ none) ∧
      (∀ e ∈ tree, e.info = some false → strings.HasPrefix e.base modPrefix = true →
        e.openFails = false ∧ e.scanErr = none) ∧
      ∃ outs : List GoString, (scannedLines modPrefix tree).map toAppend = outs.map some ∧
        c' = c ++ (outs.map (fun out => out ++ str "\n")).flatten := by
  induction tree generalizing c with
  | nil =>
    simp only [walk, Outcome.ok.injEq, List.not_mem_nil, false_implies, implies_true, true_and,
      scannedLines, List.filter_nil, List.flatMap_nil, List.map_nil]
    constructor
    · intro h
      exact ⟨[], rfl, by simp [h]⟩
    · rintro ⟨outs, h1, h2⟩
      cases outs with
      | nil => simp [h2]
      | cons a t => simp at h1
  | cons e rest ih =>
    rw [walk]
    rcases hinfo : e.info with _ | d
    · -- info is nil: the walk function panics
      have hfn : walkFn modPrefix e c = .crash := by simp [walkFn, hinfo]
      rw [hfn]
      simp only [reduceCtorEq, false_iff]
      rintro ⟨h, -, -⟩
      exact h e (List.mem_cons_self _ _) hinfo
    · by_cases hsel : (d = false ∧ strings.HasPrefix e.base modPrefix = true)
      · obtain ⟨hd, hp⟩ := hsel
        subst hd
        have hlines : scannedLines modPrefix (e :: rest) =
            e.lines ++ scannedLines modPrefix rest := by
          simp [scannedLines, List.filter_cons, hinfo, hp]
        rw [hlines]
        by_cases hopen : e.openFails = true
        · have hfn : walkFn modPrefix e c = .crash := by simp [walkFn, hinfo, hp, hopen]
          rw [hfn]
          simp only [reduceCtorEq, false_iff]
          rintro ⟨-, h, -⟩
          have := (h e (List.mem_cons_self _ _) hinfo hp).1
          rw [hopen] at this
          cases this
        · have hopen' : e.openFails = false := by simpa using hopen
          cases hscan : scanLoop e.lines c with
          | none =>
            have hfn : walkFn modPrefix e c = .crash := by
              simp [walkFn, hinfo, hp, hopen', hscan]
            rw [hfn]
            simp only [reduceCtorEq, false_iff]
            rintro ⟨-, -, outs, h1, -⟩
            rw [List.map_append] at h1
            have hex : ∃ c'', scanLoop e.lines c = some c'' := by
              refine ⟨_, (scanLoop_eq_some e.lines c _).mpr
                ⟨outs.take e.lines.length, ?_, rfl⟩⟩
              have := congrArg (List.take e.lines.length) h1
              rw [List.take_left' (by simp)] at this
              rw [this, List.map_take]
            obtain ⟨c'', hc''⟩ := hex
            rw [hscan] at hc''
            cases hc''
          | some c1 =>
            obtain ⟨outs1, ho1, hc1⟩ := (scanLoop_eq_some e.lines c c1).mp hscan
            cases herr : e.scanErr with
            | some err =>
              have hfn : walkFn modPrefix e c = .err err := by
                simp [walkFn, hinfo, hp, hopen', hscan, herr]
              rw [hfn]
              simp only [reduceCtorEq, false_iff]
              rintro ⟨-, h, -⟩
              have := (h e (List.mem_cons_self _ _) hinfo hp).2
              rw [herr] at this
              cases this
            | none =>
              have hfn : walkFn modPrefix e c = .ok c1 := by
                simp [walkFn, hinfo, hp, hopen', hscan, herr]
              rw [hfn]
              simp only
              rw [ih c1]
              constructor
              · rintro ⟨h1, h2, outs, h3, h4⟩
                refine ⟨?_, ?_, outs1 ++ outs, ?_, ?_⟩
                · intro x hx
                  rcases List.mem_cons.mp hx with hx | hx
                  · rw [hx, hinfo]
                    simp
                  · exact h1 x hx
                · intro x hx
                  rcases List.mem_cons.mp hx with hx | hx
                  · intro _ _
                    rw [hx]
                    exact ⟨hopen', herr⟩
                  · exact h2 x hx
                · rw [List.map_append, List.map_append, ho1, h3]
                · rw [h4, hc1]
                  simp
              · rintro ⟨h1, h2, outs, h3, h4⟩
                refine ⟨fun x hx => h1 x (List.mem_cons_of_mem _ hx),
                  fun x hx => h2 x (List.mem_cons_of_mem _ hx), outs.drop outs1.length, ?_, ?_⟩
                · rw [List.map_append, ho1] at h3
                  have hlen : (List.map some outs1).length = outs1.length := by simp
                  have := congrArg (List.drop outs1.length) h3
                  rw [← hlen, List.drop_left, hlen] at this
                  rw [this, List.map_drop]
                · rw [List.map_append, ho1] at h3
                  have htake : outs.take outs1.length = outs1 := by
                    have hlen : (List.map some outs1).length = outs1.length := by simp
                    have := congrArg (List.take outs1.length) h3
                    rw [← hlen, List.take_left, hlen, ← List.map_take] at this
                    exact (List.map_injective_iff.mpr (Option.some_injective _) this).symm
                  rw [h4, hc1]
                  conv_lhs => rw [← List.take_append_drop outs1.length outs]
                  rw [htake]
                  simp
      · have hlines : scannedLines modPrefix (e :: rest) = scannedLines modPrefix rest := by
          have : (decide (e.info = some false) && strings.HasPrefix e.base modPrefix) = false := by
            rw [hinfo]
            cases d with
            | true => simp
            | false =>
              have : strings.HasPrefix e.base modPrefix = false := by
                simpa using fun h => hsel ⟨rfl, h⟩
              simp [this]
          simp [scannedLines, List.filter_cons, this]
        have hfn : walkFn modPrefix e c = .ok c := by
          cases d with
          | true => simp [walkFn, hinfo]
          | false =>
            have : strings.HasPrefix e.base modPrefix = false := by
              simpa using fun h => hsel ⟨rfl, h⟩
            simp [walkFn, hinfo, this]
        rw [hfn, hlines]
        simp only
        rw [ih c]
        constructor
        · rintro ⟨h1, h2, h3⟩
          refine ⟨?_, ?_, h3⟩
          · intro x hx
            rcases List.mem_cons.mp hx with hx | hx
            · rw [hx, hinfo]
              simp
            · exact h1 x hx
          · intro x hx
            rcases List.mem_cons.mp hx with hx | hx
            · intro hi hp
              rw [hx, hinfo] at hi
              rw [hx] at hp
              exact absurd ⟨(Option.some.inj hi), hp⟩ hsel
            · exact h2 x hx
        · rintro ⟨h1, h2, h3⟩
          exact ⟨fun x hx => h1 x (List.mem_cons_of_mem _ hx),
            fun x hx => h2 x (List.mem_cons_of_mem _ hx), h3⟩

/-! ## The step loop -/

/-- The step of the loop for a step of the calculation. -/
theorem createExecution_steps (calcName : GoString) (steps : List calculationsv1.Step) :
    (createExecution calcName steps).steps =
      steps.map (fun c => ({ command := c.Command, args := c.Args, status := c.Status } : step)) := by
  unfold createExecution
  have key : ∀ (l : List calculationsv1.Step) (ex : execution),
      (l.foldl (fun ex calcStep =>
        { ex with steps := ex.steps ++
            [({ command := calcStep.Command, args := calcStep.Args,
                status := calcStep.Status } : step)] }) ex).steps =
        ex.steps ++ l.map (fun c =>
          ({ command := c.Command, args := c.Args, status := c.Status } : step)) := by
    intro l
    induction l with
    | nil => intro ex; simp
    | cons a t ih => intro ex; simp [ih]
  simpa using key steps { calculationName := calcName, steps := [] }

theorem runSteps_set (w : World) (n : GoString) (index : Nat) (s : step) (rest : List step)
    (h : s.status ≠ []) :
    runSteps w n index (s :: rest) = runSteps w n (index + 1) rest := by
  rw [runSteps]
  have : s.status.length ≠ 0 := by simpa using h
  simp [this]

theorem runSteps_unset (w : World) (n : GoString) (index : Nat) (s : step) (rest : List step)
    (h : s.status = []) (h0 : index = 0 → w.generateInputFile = none)
    (h2 : index = 2 → generateSynspec w = .ok ()) :
    runSteps w n index (s :: rest) =
      ⟨stepEvents w n index s ++ (runSteps w n (index + 1) rest).trace,
        (runSteps w n (index + 1) rest).crashed⟩ := by
  rw [runSteps]
  have hlen : ¬ s.status.length ≠ 0 := by simp [h]
  have hgen : ¬ (index = 0 ∧ w.generateInputFile.isSome = true) := by
    rintro ⟨hi, hsome⟩
    rw [h0 hi] at hsome
    cases hsome
  rw [if_neg hlen, if_neg hgen]
  by_cases hi : index = 2
  · rw [if_pos hi, h2 hi]
  · rw [if_neg hi]

theorem runSteps_break0 (w : World) (n : GoString) (s : step) (rest : List step)
    (h : s.status = []) (h0 : w.generateInputFile ≠ none) :
    runSteps w n 0 (s :: rest) = ⟨[], false⟩ := by
  rw [runSteps]
  have hlen : ¬ s.status.length ≠ 0 := by simp [h]
  have hsome : w.generateInputFile.isSome = true := by
    cases hg : w.generateInputFile with
    | none => exact absurd hg h0
    | some _ => rfl
  rw [if_neg hlen, if_pos ⟨rfl, hsome⟩]

theorem runSteps_break2 (w : World) (n : GoString) (s : step) (rest : List step)
    (h : s.status = []) (h2 : generateSynspec w ≠ .ok ()) :
    (runSteps w n 2 (s :: rest)).trace = [] := by
  rw [runSteps]
  have hlen : ¬ s.status.length ≠ 0 := by simp [h]
  have hgen : ¬ ((2 : Nat) = 0 ∧ w.generateInputFile.isSome = true) := by simp
  rw [if_neg hlen, if_neg hgen, if_pos rfl]
  cases hg : generateSynspec w with
  | crash => rfl
  | err e => rfl
  | ok u => exact absurd hg h2

/-- Every event of the loop belongs to a step at or after the start whose status was
empty. -/
theorem runSteps_index (w : World) (n : GoString) (steps : List step) (index : Nat) :
    ∀ ev ∈ (runSteps w n index steps).trace,
      index ≤ ev.index ∧ ∃ s, steps[ev.index - index]? = some s ∧ s.status = [] := by
  induction steps generalizing index with
  | nil => simp [runSteps]
  | cons s rest ih =>
    have hnext : ∀ ev ∈ (runSteps w n (index + 1) rest).trace,
        index ≤ ev.index ∧ ∃ s', (s :: rest)[ev.index - index]? = some s' ∧ s'.status = [] := by
      intro ev hev
      obtain ⟨hle, s', hs', hst⟩ := ih (index + 1) ev hev
      refine ⟨by omega, s', ?_, hst⟩
      have : ev.index - index = (ev.index - (index + 1)) + 1 := by omega
      rw [this, List.getElem?_cons_succ]
      exact hs'
    by_cases hs : s.status = []
    · rw [runSteps]
      have hlen : ¬ s.status.length ≠ 0 := by simp [hs]
      rw [if_neg hlen]
      by_cases hgen : index = 0 ∧ w.generateInputFile.isSome = true
      · rw [if_pos hgen]
        simp
      · rw [if_neg hgen]
        cases hg : (if index = 2 then generateSynspec w else Outcome.ok ()) with
        | crash => simp
        | err e => simp
        | ok u =>
          simp only
          intro ev hev
          rcases List.mem_append.mp hev with hev | hev
          · have hidx : ev.index = index := by
              simp only [stepEvents, List.mem_cons, List.mem_singleton, List.not_mem_nil,
                or_false] at hev
              rcases hev with hev | hev <;> rw [hev] <;> rfl
            rw [hidx]
            exact ⟨le_refl _, s, by simp, hs⟩
          · exact hnext ev hev
    · rw [runSteps_set w n index s rest hs]
      exact hnext

theorem results_stepEvents_append (w : World) (n : GoString) (index : Nat) (s : step)
    (tr : List Event) :
    results (stepEvents w n index s ++ tr) = stepResult w n index s :: results tr := by
  simp [results, stepEvents]

theorem executed_stepEvents_append (w : World) (n : GoString) (index : Nat) (s : step)
    (tr : List Event) :
    executed (stepEvents w n index s ++ tr) = index :: executed tr := by
  simp [executed, stepEvents]

theorem mem_results {r : Result} {tr : List Event} (h : r ∈ results tr) :
    Event.result r ∈ tr := by
  unfold results at h
  rw [List.mem_filterMap] at h
  obtain ⟨ev, hev, hr⟩ := h
  cases ev with
  | command i c a => simp at hr
  | result r' =>
    simp only [Option.some.injEq] at hr
    rw [← hr]
    exact hev

theorem mem_executed {i : Nat} {tr : List Event} (h : i ∈ executed tr) :
    ∃ c a, Event.command i c a ∈ tr := by
  unfold executed at h
  rw [List.mem_filterMap] at h
  obtain ⟨ev, hev, hr⟩ := h
  cases ev with
  | command j c a =>
    simp only [Option.some.injEq] at hr
    rw [← hr]
    exact ⟨c, a, hev⟩
  | result r' => simp at hr

/-- When no status is set and the input files can be generated, the loop runs the
command of every step and sends its result, in order. -/
theorem runSteps_all (w : World) (n : GoString) (steps : List step) (index : Nat)
    (hunset : ∀ s ∈ steps, s.status = []) (h0 : w.generateInputFile = none)
    (h2 : generateSynspec w = .ok ()) :
    runSteps w n index steps =
      ⟨(steps.enumFrom index).flatMap (fun p => stepEvents w n p.1 p.2), false⟩ := by
  induction steps generalizing index with
  | nil => simp [runSteps]
  | cons s rest ih =>
    rw [runSteps_unset w n index s rest (hunset s (List.mem_cons_self _ _)) (fun _ => h0)
      (fun _ => h2)]
    rw [ih (index + 1) (fun x hx => hunset x (List.mem_cons_of_mem _ hx))]
    simp

theorem results_flatMap_stepEvents (w : World) (n : GoString) (l : List (Nat × step)) :
    results (l.flatMap (fun p => stepEvents w n p.1 p.2)) =
      l.map (fun p => stepResult w n p.1 p.2) := by
  induction l with
  | nil => simp [results]
  | cons a t ih =>
    rw [List.flatMap_cons, results_stepEvents_append, ih]
    simp

theorem executed_flatMap_stepEvents (w : World) (n : GoString) (l : List (Nat × step)) :
    executed (l.flatMap (fun p => stepEvents w n p.1 p.2)) = l.map (fun p => p.1) := by
  induction l with
  | nil => simp [executed]
  | cons a t ih =>
    rw [List.flatMap_cons, executed_stepEvents_append, ih]
    simp

/-- The results of the loop come with strictly increasing step indices. -/
theorem runSteps_increasing (w : World) (n : GoString) (steps : List step) (index : Nat) :
    List.Pairwise (fun a b : Nat => a < b)
      ((results (runSteps w n index steps).trace).map (fun r => r.Step)) := by
  induction steps generalizing index with
  | nil => simp [runSteps, results]
  | cons s rest ih =>
    by_cases hs : s.status = []
    · rw [runSteps]
      have hlen : ¬ s.status.length ≠ 0 := by simp [hs]
      rw [if_neg hlen]
      by_cases hgen : index = 0 ∧ w.generateInputFile.isSome = true
      · rw [if_pos hgen]
        simp [results]
      · rw [if_neg hgen]
        cases hg : (if index = 2 then generateSynspec w else Outcome.ok ()) with
        | crash => simp [results]
        | err e => simp [results]
        | ok u =>
          simp only
          rw [results_stepEvents_append, List.map_cons, List.pairwise_cons]
          refine ⟨?_, ih (index + 1)⟩
          intro x hx
          rw [List.mem_map] at hx
          obtain ⟨r, hr, hrx⟩ := hx
          have := (runSteps_index w n rest (index + 1) _ (mem_results hr)).1
          have hidx : (Event.result r).index = r.Step := rfl
          have hst : (stepResult w n index s).Step = index := rfl
          rw [hst]
          omega
    · rw [runSteps_set w n index s rest hs]
      exact ih (index + 1)

/-- One pass either stops in the setup or is the step loop from index 0. -/
theorem pass_cases (e : Executor) (w : World) (calculation : calculationsv1.Calculation) :
    e.pass w calculation = ⟨[], false⟩ ∨
    e.pass w calculation = runSteps w calculation.Name 0
      (calculation.Steps.map (fun c =>
        ({ command := c.Command, args := c.Args, status := c.Status } : step))) := by
  unfold Executor.pass
  rw [createExecution_steps]
  by_cases h1 : (setUnlimitStack w).isSome = true
  · left; rw [if_pos h1]
  · rw [if_neg h1]
    by_cases h2 : w.Stat.isSome = true ∧ w.MkdirAll.isSome = true
    · left; rw [if_pos h2]
    · rw [if_neg h2]
      by_cases h3 : (createSymbolicLinks w [e.atlasControlFiles, e.atlasDataFiles]).isSome = true
      · left; rw [if_pos h3]
      · right; rw [if_neg h3]

/-- After a setup without error the pass is the step loop from index 0. -/
theorem pass_of_setup (e : Executor) (w : World) (calculation : calculationsv1.Calculation)
    (hstack : w.Setrlimit = none) (hdir : w.Stat = none ∨ w.MkdirAll = none)
    (hlinks : w.Walk e.atlasControlFiles = none ∧ w.Walk e.atlasDataFiles = none) :
    e.pass w calculation = runSteps w calculation.Name 0
      (calculation.Steps.map (fun c =>
        ({ command := c.Command, args := c.Args, status := c.Status } : step))) := by
  unfold Executor.pass
  rw [createExecution_steps]
  have h1 : ¬ (setUnlimitStack w).isSome = true := by simp [setUnlimitStack, hstack]
  have h2 : ¬ (w.Stat.isSome = true ∧ w.MkdirAll.isSome = true) := by
    rintro ⟨ha, hb⟩
    rcases hdir with h | h
    · rw [h] at ha; cases ha
    · rw [h] at hb; cases hb
  have h3 : ¬ (createSymbolicLinks w [e.atlasControlFiles, e.atlasDataFiles]).isSome = true := by
    simp [createSymbolicLinks, hlinks.1, hlinks.2]
  rw [if_neg h1, if_neg h2, if_neg h3]

/-- A setup error ends the pass before the step loop. -/
theorem pass_of_setup_error (e : Executor) (w : World)
    (calculation : calculationsv1.Calculation)
    (h : w.Setrlimit ≠ none ∨ (w.Stat ≠ none ∧ w.MkdirAll ≠ none) ∨
      w.Walk e.atlasControlFiles ≠ none ∨ w.Walk e.atlasDataFiles ≠ none) :
    e.pass w calculation = ⟨[], false⟩ := by
  unfold Executor.pass
  by_cases h1 : (setUnlimitStack w).isSome = true
  · rw [if_pos h1]
  · rw [if_neg h1]
    by_cases h2 : w.Stat.isSome = true ∧ w.MkdirAll.isSome = true
    · rw [if_pos h2]
    · rw [if_neg h2]
      by_cases h3 : (createSymbolicLinks w [e.atlasControlFiles, e.atlasDataFiles]).isSome = true
      · rw [if_pos h3]
      · exfalso
        rcases h with h | h | h | h
        · apply h1
          cases hs : w.Setrlimit with
          | none => exact absurd hs h
          | some err => simp [setUnlimitStack, hs]
        · apply h2
          constructor
          · cases hs : w.Stat with
            | none => exact absurd hs h.1
            | some err => rfl
          · cases hs : w.MkdirAll with
            | none => exact absurd hs h.2
            | some err => rfl
        · apply h3
          cases hs : w.Walk e.atlasControlFiles with
          | none => exact absurd hs h
          | some err => simp [createSymbolicLinks, hs]
        · apply h3
          cases hs : w.Walk e.atlasDataFiles with
          | none => exact absurd hs h
          | some err =>
            cases hc : w.Walk e.atlasControlFiles with
            | none => simp [createSymbolicLinks, hs, hc]
            | some err' => simp [createSymbolicLinks, hc]

theorem Run_single (e : Executor) (w : World) (calculation : calculationsv1.Calculation) :
    e.Run [(w, calculation)] = (e.pass w calculation).trace := by
  simp [Executor.Run]

/-- The block at index 2 succeeds exactly when the reformatter returns contents, the
contents can be written and the runtime input file can be generated. -/
theorem generateSynspec_eq_ok (w : World) :
    generateSynspec w = .ok () ↔
      ∃ contents, generateSynspecInputFile w.tree (str "t10000_400_72_strat.mod")
          (str "fort.8") = .ok contents ∧
        w.WriteFile contents = none ∧ w.generateSynspecInputRuntimeFile = none := by
  unfold generateSynspec
  cases hg : generateSynspecInputFile w.tree (str "t10000_400_72_strat.mod") (str "fort.8") with
  | crash => simp
  | err e => simp
  | ok contents =>
    cases hw : w.WriteFile contents with
    | some err => simp [hw]
    | none =>
      cases hr : w.generateSynspecInputRuntimeFile with
      | some err => simp [hw]
      | none => simp [hw]

/-- When no status is set, the setup succeeds and the input files can be generated, the
results of one pass of `Run` are those of the steps of the calculation, in order. -/
theorem Run_trace_all (e : Executor) (w : World) (calculation : calculationsv1.Calculation)
    (hunset : ∀ s ∈ calculation.Steps, s.Status = [])
    (hstack : w.Setrlimit = none) (hdir : w.Stat = none ∨ w.MkdirAll = none)
    (hlinks : w.Walk e.atlasControlFiles = none ∧ w.Walk e.atlasDataFiles = none)
    (hgen0 : w.generateInputFile = none)
    (hgen2 : generateSynspec w = .ok ()) :
    results (e.Run [(w, calculation)]) =
      calculation.Steps.enum.map (fun p => stepResult w calculation.Name p.1
        { command := p.2.Command, args := p.2.Args, status := p.2.Status }) ∧
    executed (e.Run [(w, calculation)]) = List.range calculation.Steps.length := by
  rw [Run_single, pass_of_setup e w calculation hstack hdir hlinks]
  rw [runSteps_all w calculation.Name _ 0 (by
    intro s hs
    rw [List.mem_map] at hs
    obtain ⟨c, hc, hcs⟩ := hs
    rw [← hcs]
    exact hunset c hc) hgen0 hgen2]
  simp only
  rw [results_flatMap_stepEvents, executed_flatMap_stepEvents, List.enumFrom_map]
  constructor
  · rw [List.map_map]
    rfl
  · rw [List.map_map]
    have : ((fun p : Nat × step => p.1) ∘ Prod.map id (fun c : calculationsv1.Step =>
        ({ command := c.Command, args := c.Args, status := c.Status } : step))) = Prod.fst := by
      funext p
      rfl
    rw [this]
    exact List.enum_map_fst _

/-- C1: for a calculation whose steps all have an empty status, when the setup succeeds
(stack limit, directory, symbolic links), the input files of index 0 and index 2 can be
generated and the command of every step returns no error, one pass of `Run` sends
exactly one result per step, with the step indices 0, 1, ..., N-1 in this order, each
with status `Completed`, no command error and the name of the calculation. -/
theorem Run_all_completed (e : Executor) (w : World)
    (calculation : calculationsv1.Calculation)
    (hunset : ∀ s ∈ calculation.Steps, s.Status = [])
    (hstack : w.Setrlimit = none) (hdir : w.Stat = none ∨ w.MkdirAll = none)
    (hlinks : w.Walk e.atlasControlFiles = none ∧ w.Walk e.atlasDataFiles = none)
    (hgen0 : w.generateInputFile = none)
    (hgen2 : ∃ contents, generateSynspecInputFile w.tree (str "t10000_400_72_strat.mod")
        (str "fort.8") = .ok contents ∧
      w.WriteFile contents = none ∧ w.generateSynspecInputRuntimeFile = none)
    (hcmd : ∀ i s, calculation.Steps[i]? = some s →
      (w.CombinedOutput i s.Command (strings.Join s.Args (str " "))).2 = none) :
    (results (e.Run [(w, calculation)])).length = calculation.Steps.length ∧
    (results (e.Run [(w, calculation)])).map (fun r => r.Step) =
      List.range calculation.Steps.length ∧
    ∀ r ∈ results (e.Run [(w, calculation)]),
      r.Status = str "Completed" ∧ r.CommandError = none ∧ r.CalcName = calculation.Name := by
  have hall := (Run_trace_all e w calculation hunset hstack hdir hlinks hgen0
    ((generateSynspec_eq_ok w).mpr hgen2)).1
  rw [hall]
  refine ⟨by simp, ?_, ?_⟩
  · rw [List.map_map]
    have : ((fun r : Result => r.Step) ∘ fun p : Nat × calculationsv1.Step =>
        stepResult w calculation.Name p.1
          { command := p.2.Command, args := p.2.Args, status := p.2.Status }) = Prod.fst := by
      funext p
      rfl
    rw [this]
    exact List.enum_map_fst _
  · intro r hr
    rw [List.mem_map] at hr
    obtain ⟨p, hp, hpr⟩ := hr
    have hget := List.mem_enum_iff_getElem?.mp hp
    have hnone := hcmd p.1 p.2 hget
    rw [← hpr]
    simp [stepResult, hnone]

/-- C2: for a calculation whose steps all have an empty status, when the setup succeeds
and the input files can be generated, and the command of step `k` returns an error, the
result of every step is sent, each built from the outcome of the command of its own step
only; the result at `k` has status `Failed` and carries the error, and the commands of
all steps, those after `k` included, are run. -/
theorem Run_continues_after_failure (e : Executor) (w : World)
    (calculation : calculationsv1.Calculation) (k : Nat) (sk : calculationsv1.Step)
    (err : GoError)
    (hunset : ∀ s ∈ calculation.Steps, s.Status = [])
    (hstack : w.Setrlimit = none) (hdir : w.Stat = none ∨ w.MkdirAll = none)
    (hlinks : w.Walk e.atlasControlFiles = none ∧ w.Walk e.atlasDataFiles = none)
    (hgen0 : w.generateInputFile = none)
    (hgen2 : ∃ contents, generateSynspecInputFile w.tree (str "t10000_400_72_strat.mod")
        (str "fort.8") = .ok contents ∧
      w.WriteFile contents = none ∧ w.generateSynspecInputRuntimeFile = none)
    (hk : calculation.Steps[k]? = some sk)
    (herr : (w.CombinedOutput k sk.Command (strings.Join sk.Args (str " "))).2 = some err) :
    (results (e.Run [(w, calculation)]))[k]? = some
      ({ CalcName := calculation.Name
         Step := k
         Status := str "Failed"
         StdoutStderr := (w.CombinedOutput k sk.Command (strings.Join sk.Args (str " "))).1
         CommandError := some err } : Result) ∧
    (∀ (i : Nat) (s : calculationsv1.Step), calculation.Steps[i]? = some s →
      (results (e.Run [(w, calculation)]))[i]? = some
        ({ CalcName := calculation.Name
           Step := i
           Status :=
             if (w.CombinedOutput i s.Command (strings.Join s.Args (str " "))).2.isSome then
               str "Failed"
             else str "Completed"
           StdoutStderr := (w.CombinedOutput i s.Command (strings.Join s.Args (str " "))).1
           CommandError :=
             (w.CombinedOutput i s.Command (strings.Join s.Args (str " "))).2 } : Result)) ∧
    (results (e.Run [(w, calculation)])).length = calculation.Steps.length ∧
    executed (e.Run [(w, calculation)]) = List.range calculation.Steps.length := by
  have hall := Run_trace_all e w calculation hunset hstack hdir hlinks hgen0
    ((generateSynspec_eq_ok w).mpr hgen2)
  rw [hall.1, hall.2]
  have hget : ∀ i s, calculation.Steps[i]? = some s →
      (calculation.Steps.enum.map (fun p => stepResult w calculation.Name p.1
        { command := p.2.Command, args := p.2.Args, status := p.2.Status }))[i]? = some
        (stepResult w calculation.Name i
          { command := s.Command, args := s.Args, status := s.Status }) := by
    intro i s hs
    rw [List.getElem?_map, List.getElem?_enum, hs]
    rfl
  refine ⟨?_, ?_, by simp, rfl⟩
  · rw [hget k sk hk]
    simp [stepResult, herr]
  · intro i s hs
    rw [hget i s hs]
    rfl

/-- C3: whatever the commands and the generation of the input files do, the step
indices of the results one pass sends are strictly increasing (so there is at most one
result per step), and for a step whose status was not empty when the calculation was
received no result is sent and its command is not run. -/
theorem pass_results_increasing (e : Executor) (w : World)
    (calculation : calculationsv1.Calculation) :
    List.Pairwise (fun a b : Nat => a < b)
      ((results (e.pass w calculation).trace).map (fun r => r.Step)) ∧
    ∀ i s, calculation.Steps[i]? = some s → s.Status ≠ [] →
      (∀ r ∈ results (e.pass w calculation).trace, r.Step ≠ i) ∧
      i ∉ executed (e.pass w calculation).trace := by
  rcases pass_cases e w calculation with h | h
  · rw [h]
    simp [results, executed]
  · rw [h]
    refine ⟨runSteps_increasing _ _ _ _, ?_⟩
    intro i s hs hset
    have hev : ∀ ev ∈ (runSteps w calculation.Name 0 (calculation.Steps.map (fun c =>
        ({ command := c.Command, args := c.Args, status := c.Status } : step)))).trace,
        ev.index ≠ i := by
      intro ev hev hi
      obtain ⟨-, s', hs', hst⟩ := runSteps_index w calculation.Name _ 0 ev hev
      rw [hi, Nat.sub_zero, List.getElem?_map, hs] at hs'
      simp only [Option.map_some', Option.some.injEq] at hs'
      rw [← hs'] at hst
      exact hset hst
    constructor
    · intro r hr
      exact hev _ (mem_results hr)
    · intro hi
      obtain ⟨c, a, hca⟩ := mem_executed hi
      exact hev _ hca rfl

/-- C4: when raising the stack limit fails, or the working directory is missing and
cannot be created, or the walk of one of the two source trees of the symbolic links
fails, the pass ends without any event (no command is run, no result is sent) and `Run`
goes on with the calculations that follow as if this one had not arrived. -/
theorem Run_setup_error (e : Executor) (w : World) (calculation : calculationsv1.Calculation)
    (rest : List (World × calculationsv1.Calculation))
    (h : w.Setrlimit ≠ none ∨ (w.Stat ≠ none ∧ w.MkdirAll ≠ none) ∨
      w.Walk e.atlasControlFiles ≠ none ∨ w.Walk e.atlasDataFiles ≠ none) :
    e.pass w calculation = ⟨[], false⟩ ∧
    results (e.pass w calculation).trace = [] ∧
    executed (e.pass w calculation).trace = [] ∧
    e.Run ((w, calculation) :: rest) = e.Run rest := by
  have hp := pass_of_setup_error e w calculation h
  refine ⟨hp, by rw [hp]; rfl, by rw [hp]; rfl, ?_⟩
  rw [Executor.Run]
  simp [hp]

/-! ## Generation errors -/

theorem stepEvents_generationSucceeds (w : World) (n : GoString) (index : Nat) (s : step) :
    stepEvents w.generationSucceeds n index s = stepEvents w n index s := rfl

theorem generateSynspec_generationSucceeds (w : World) :
    generateSynspec w.generationSucceeds = .ok () := rfl

/-- The setup does not depend on the generation of the input files. -/
theorem pass_generationSucceeds (e : Executor) (w : World)
    (calculation : calculationsv1.Calculation) :
    (e.pass w calculation = ⟨[], false⟩ ∧
      e.pass w.generationSucceeds calculation = ⟨[], false⟩) ∨
    (e.pass w calculation = runSteps w calculation.Name 0
        (calculation.Steps.map (fun c =>
          ({ command := c.Command, args := c.Args, status := c.Status } : step))) ∧
      e.pass w.generationSucceeds calculation = runSteps w.generationSucceeds
        calculation.Name 0
        (calculation.Steps.map (fun c =>
          ({ command := c.Command, args := c.Args, status := c.Status } : step)))) := by
  unfold Executor.pass
  rw [createExecution_steps]
  by_cases h1 : (setUnlimitStack w).isSome = true
  · have h1' : (setUnlimitStack w.generationSucceeds).isSome = true := h1
    left
    rw [if_pos h1, if_pos h1']
    exact ⟨rfl, rfl⟩
  · have h1' : ¬ (setUnlimitStack w.generationSucceeds).isSome = true := h1
    rw [if_neg h1, if_neg h1']
    by_cases h2 : w.Stat.isSome = true ∧ w.MkdirAll.isSome = true
    · have h2' : w.generationSucceeds.Stat.isSome = true ∧
          w.generationSucceeds.MkdirAll.isSome = true := h2
      left
      rw [if_pos h2, if_pos h2']
      exact ⟨rfl, rfl⟩
    · have h2' : ¬ (w.generationSucceeds.Stat.isSome = true ∧
          w.generationSucceeds.MkdirAll.isSome = true) := h2
      rw [if_neg h2, if_neg h2']
      by_cases h3 : (createSymbolicLinks w [e.atlasControlFiles, e.atlasDataFiles]).isSome = true
      · have h3' : (createSymbolicLinks w.generationSucceeds
            [e.atlasControlFiles, e.atlasDataFiles]).isSome = true := h3
        left
        rw [if_pos h3, if_pos h3']
        exact ⟨rfl, rfl⟩
      · have h3' : ¬ (createSymbolicLinks w.generationSucceeds
            [e.atlasControlFiles, e.atlasDataFiles]).isSome = true := h3
        right
        rw [if_neg h3, if_neg h3']
        exact ⟨rfl, rfl⟩

/-- Before index 2 the loop either skips the step or runs it, and goes on. -/
theorem runSteps_trace_early (v : World) (n : GoString) (j : Nat) (x : step)
    (rest : List step) (hj : j ≠ 2) (h0 : j = 0 → x.status = [] → v.generateInputFile = none) :
    (runSteps v n j (x :: rest)).trace =
      (if x.status = [] then stepEvents v n j x else []) ++
        (runSteps v n (j + 1) rest).trace := by
  by_cases hx : x.status = []
  · rw [runSteps_unset v n j x rest hx (fun h => h0 h hx) (fun h => absurd h hj), if_pos hx]
  · rw [runSteps_set v n j x rest hx, if_neg hx]
    rfl

theorem filter_early_events (v : World) (n : GoString) (j i : Nat) (x : step) (hj : j < i) :
    (if x.status = [] then stepEvents v n j x else []).filter
        (fun ev => decide (ev.index < i)) =
      (if x.status = [] then stepEvents v n j x else []) := by
  rw [List.filter_eq_self]
  intro ev hev
  by_cases hx : x.status = []
  · rw [if_pos hx] at hev
    simp only [stepEvents, List.mem_cons, List.mem_singleton, List.not_mem_nil,
      or_false] at hev
    rcases hev with hev | hev
    · rw [hev]
      simpa [Event.index] using hj
    · rw [hev]
      simpa [Event.index, stepResult] using hj
  · rw [if_neg hx] at hev
    cases hev

/-- The trace of a pass in which the generation of an input file fails at the step `i`
with an empty status: what the pass without the failure does before index `i`. -/
theorem pass_trace_generation_error (e : Executor) (w : World)
    (calculation : calculationsv1.Calculation) (i : Nat) (s : calculationsv1.Step)
    (hi : calculation.Steps[i]? = some s) (hs : s.Status = [])
    (hfail : (i = 0 ∧ w.generateInputFile ≠ none) ∨
      (i = 2 ∧
        (w.generateInputFile = none ∨
          ∃ s0, calculation.Steps[0]? = some s0 ∧ s0.Status ≠ []) ∧
        generateSynspec w ≠ .ok ())) :
    (e.pass w calculation).trace =
      (e.pass w.generationSucceeds calculation).trace.filter
        (fun ev => decide (ev.index < i)) := by
  rcases pass_generationSucceeds e w calculation with ⟨h, h'⟩ | ⟨h, h'⟩
  · rw [h, h']
    rfl
  · rw [h, h']
    rcases hfail with ⟨hi0, hgen⟩ | ⟨hi2, hreach, hgen⟩
    · subst hi0
      cases hsteps : calculation.Steps with
      | nil => rw [hsteps] at hi; simp at hi
      | cons a rest =>
        rw [hsteps] at hi
        simp only [List.getElem?_cons_zero, Option.some.injEq] at hi
        subst hi
        rw [List.map_cons, runSteps_break0 w _ _ _ hs hgen]
        simp
    · subst hi2
      rcases hsteps : calculation.Steps with _ | ⟨a, _ | ⟨b, _ | ⟨c, rest⟩⟩⟩
      · rw [hsteps] at hi; simp at hi
      · rw [hsteps] at hi; simp at hi
      · rw [hsteps] at hi; simp at hi
      · rw [hsteps] at hi hreach
        simp only [List.getElem?_cons_succ, List.getElem?_cons_zero, Option.some.injEq] at hi
        subst hi
        have ha : a.Status = [] → w.generateInputFile = none := by
          intro ha
          rcases hreach with h0 | ⟨s0, hs0, hset⟩
          · exact h0
          · simp only [List.getElem?_cons_zero, Option.some.injEq] at hs0
            rw [← hs0] at hset
            exact absurd ha hset
        simp only [List.map_cons]
        rw [runSteps_trace_early w _ 0 _ _ (by decide) (fun _ h => ha h),
          runSteps_trace_early w _ 1 _ _ (by decide) (fun h => absurd h (by decide)),
          runSteps_break2 w _ _ _ hs hgen,
          runSteps_trace_early w.generationSucceeds _ 0 _ _ (by decide) (fun _ _ => rfl),
          runSteps_trace_early w.generationSucceeds _ 1 _ _ (by decide)
            (fun h => absurd h (by decide))]
        rw [stepEvents_generationSucceeds, stepEvents_generationSucceeds,
          List.filter_append, List.filter_append,
          filter_early_events w _ 0 2 _ (by decide), filter_early_events w _ 1 2 _ (by decide)]
        congr 2
        symm
        rw [List.filter_eq_nil_iff]
        intro ev hev
        have := (runSteps_index _ _ _ _ ev hev).1
        simp only [decide_eq_true_eq, not_lt]
        exact this

/-- A word without whitespace at the start of a line is still there after the scan. -/
theorem replaceScan_word_append (word : GoString)
    (hword : ∀ b ∈ word, regexp.isSpace b = false) (rest : GoString) :
    regexp.replaceScan [32] false (word ++ rest) =
      word ++ regexp.replaceScan [32] false rest := by
  induction word with
  | nil => rfl
  | cons b t ih =>
    have hb := hword b (List.mem_cons_self _ _)
    rw [List.cons_append, regexp.replaceScan]
    simp only [hb, Bool.false_eq_true, if_false, List.cons_append]
    rw [ih (fun x hx => hword x (List.mem_cons_of_mem _ hx))]

/-- A line that begins with `TEFF` still does after the whitespace is collapsed. -/
theorem HasPrefix_TEFF_collapsed (line : GoString)
    (h : strings.HasPrefix line (str "TEFF") = true) :
    strings.HasPrefix (regexp.ReplaceAllString line (str " ")) (str "TEFF") = true := by
  obtain ⟨rest, hrest⟩ := List.isPrefixOf_iff_prefix.mp h
  unfold strings.HasPrefix regexp.ReplaceAllString
  rw [List.isPrefixOf_iff_prefix, ← hrest, str_space,
    replaceScan_word_append (str "TEFF") (by decide)]
  exact ⟨_, rfl⟩

/-! ## The reformatter, line by line -/

/-- C6: on a list of at least five tokens `recreateVarsLine` returns the first five
tokens with gaps of two, one, two and three spaces when the second token has length 6,
and with gaps of one, one, two and three spaces for every other length; the tokens
`TEFF`, `400000`, `4.25000`, `7000.`, `1.0` give `TEFF  400000 4.25000  7000.   1.0`, and
with a second token of length 5 or 7 the gap after `TEFF` is one space. The reformatter
applies it to the tokens of a line that begins with `TEFF`. -/
theorem recreateVarsLine_spacing :
    (∀ (t0 t1 t2 t3 t4 : GoString) (more : List GoString),
      recreateVarsLine (t0 :: t1 :: t2 :: t3 :: t4 :: more) =
        some (if t1.length = 6 then
            t0 ++ str "  " ++ t1 ++ str " " ++ t2 ++ str "  " ++ t3 ++ str "   " ++ t4
          else t0 ++ str " " ++ t1 ++ str " " ++ t2 ++ str "  " ++ t3 ++ str "   " ++ t4)) ∧
    recreateVarsLine [str "TEFF", str "400000", str "4.25000", str "7000.", str "1.0"] =
      some (str "TEFF  400000 4.25000  7000.   1.0") ∧
    (∀ t1 : GoString, t1.length = 5 ∨ t1.length = 7 →
      recreateVarsLine [str "TEFF", t1, str "4.25000", str "7000.", str "1.0"] =
        some (str "TEFF" ++ str " " ++ t1 ++ str " 4.25000  7000.   1.0")) ∧
    toAppend (str "TEFF   400000.   4.25000  7000.\t1.0") =
      some (str "TEFF 400000. 4.25000  7000.   1.0") ∧
    toAppend (str "TEFF   400000   4.25000  7000.\t1.0") =
      some (str "TEFF  400000 4.25000  7000.   1.0") := by
  refine ⟨?_, by decide, ?_, by decide, by decide⟩
  · intro t0 t1 t2 t3 t4 more
    rw [recreateVarsLine_cons5]
    rfl
  · intro t1 h
    have h6 : t1.length ≠ 6 := by omega
    rw [recreateVarsLine_cons5, if_neg h6]
    have e1 : str " 4.25000  7000.   1.0" =
        str " " ++ str "4.25000" ++ str "  " ++ str "7000." ++ str "   " ++ str "1.0" := by
      decide
    rw [e1]
    simp [Sprintf5, List.append_assoc]

/-- C6, at a second token of five bytes: the narrow spacing. -/
theorem recreateVarsLine_spacing_witness :
    recreateVarsLine [str "TEFF", str "40000", str "4.25000", str "7000.", str "1.0"] =
      some (str "TEFF 40000 4.25000  7000.   1.0") := by
  rw [recreateVarsLine_spacing.2.2.1 (str "40000") (Or.inl (by decide))]
  decide

/-- C7 as stated fails: the line ` READ DECK6 72` (a blank in front) contains the
substring, and the reformatter emits it with `72` still in place. -/
theorem toAppend_read_deck_not_anywhere :
    strings.Contains (regexp.ReplaceAllString (str " READ DECK6 72") (str " "))
      (str "READ DECK6 72") = true ∧
    toAppend (str " READ DECK6 72") = some (str " READ DECK6 72") ∧
    toAppend (str " READ DECK6 72") ≠ some (str " READ DECK6 64") := by
  decide

/-- C7, amended: for every line whose whitespace-collapsed form begins with
`READ DECK6 72`, the reformatter emits the collapsed line with every occurrence of that
substring replaced by `READ DECK6 64`: the occurrence at the start, and those in what
follows it. -/
theorem toAppend_read_deck (line : GoString)
    (h : strings.HasPrefix (regexp.ReplaceAllString line (str " ")) (str "READ DECK6 72") =
      true) :
    toAppend line = some (strings.Replace (regexp.ReplaceAllString line (str " "))
      (str "READ DECK6 72") (str "READ DECK6 64") (-1)) ∧
    ∃ rest, regexp.ReplaceAllString line (str " ") = str "READ DECK6 72" ++ rest ∧
      toAppend line = some (str "READ DECK6 64" ++
        strings.Replace rest (str "READ DECK6 72") (str "READ DECK6 64") (-1)) := by
  have hpre : str "READ DECK6 72" <+: regexp.ReplaceAllString line (str " ") :=
    List.isPrefixOf_iff_prefix.mp h
  obtain ⟨rest, hrest⟩ := hpre
  have hR : str "READ DECK6 72" = 82 :: str "EAD DECK6 72" := by decide
  have hT : str "TEFF" = 84 :: str "EFF" := by decide
  have hteff : strings.HasPrefix (regexp.ReplaceAllString line (str " ")) (str "TEFF") =
      false := by
    rw [← hrest, hR, hT]
    simp [strings.HasPrefix, List.isPrefixOf]
  have hout : toAppend line = some (strings.Replace (regexp.ReplaceAllString line (str " "))
      (str "READ DECK6 72") (str "READ DECK6 64") (-1)) := by
    unfold toAppend
    simp only [hteff, h, Bool.false_eq_true, if_false, if_true]
  refine ⟨hout, rest, hrest.symm, ?_⟩
  rw [hout, ← hrest, hR, Replace_occurrence]

/-- C7, amended, at the line `READ  DECK6 72 RHOX,T READ DECK6 72`. -/
theorem toAppend_read_deck_witness :
    toAppend (str "READ  DECK6 72 RHOX,T READ DECK6 72") =
      some (strings.Replace (regexp.ReplaceAllString
        (str "READ  DECK6 72 RHOX,T READ DECK6 72") (str " "))
        (str "READ DECK6 72") (str "READ DECK6 64") (-1)) :=
  (toAppend_read_deck (str "READ  DECK6 72 RHOX,T READ DECK6 72") (by decide)).1

/-- C9: for every line whose whitespace-collapsed form begins with neither `TEFF` nor
`READ DECK6 72`, the reformatter appends the line with every maximal run of whitespace
replaced by one space, followed by a newline; the emitted line has no whitespace byte
other than the space, no two adjacent spaces, and collapsing it again leaves it
unchanged. What the reformatter returns is the emitted lines of the scanned files, in
the order of the walk, each followed by a newline; it returns them whenever every entry
can be read and every scanned line is transformed. -/
theorem generateSynspecInputFile_other_lines :
    (∀ line : GoString,
      strings.HasPrefix (regexp.ReplaceAllString line (str " ")) (str "TEFF") = false →
      strings.HasPrefix (regexp.ReplaceAllString line (str " ")) (str "READ DECK6 72") =
        false →
      toAppend line = some (collapseRuns line) ∧
      (∀ contents, scanLoop [line] contents =
        some (contents ++ (collapseRuns line ++ str "\n"))) ∧
      (∀ b ∈ collapseRuns line, regexp.isSpace b = true → b = 32) ∧
      List.Chain' (fun a b : UInt8 => ¬ (a = 32 ∧ b = 32)) (collapseRuns line) ∧
      regexp.ReplaceAllString (collapseRuns line) (str " ") = collapseRuns line) ∧
    (∀ (tree : List WalkEntry) (modPrefix outFile contents : GoString),
      generateSynspecInputFile tree modPrefix outFile = .ok contents →
      ∃ outs : List GoString,
        (scannedLines modPrefix tree).map toAppend = outs.map some ∧
        contents = (outs.map (fun out => out ++ str "\n")).flatten) ∧
    (∀ (tree : List WalkEntry) (modPrefix outFile : GoString),
      (∀ e ∈ tree, e.info ≠ none ∧ e.openFails = false ∧ e.scanErr = none) →
      (∀ line ∈ scannedLines modPrefix tree, (toAppend line).isSome = true) →
      ∃ contents, generateSynspecInputFile tree modPrefix outFile = .ok contents) := by
  refine ⟨?_, ?_, ?_⟩
  · intro line hteff hread
    have hout : toAppend line = some (collapseRuns line) := by
      unfold toAppend
      simp only [hteff, hread, Bool.false_eq_true, if_false]
      rw [ReplaceAllString_eq_collapseRuns]
    have hscan : collapseRuns line = regexp.replaceScan [32] false line := by
      rw [← ReplaceAllString_eq_collapseRuns, regexp.ReplaceAllString, str_space]
    refine ⟨hout, ?_, ?_, ?_, ?_⟩
    · intro contents
      simp [scanLoop, hout]
    · rw [hscan]
      exact replaceScan_only_space false line
    · rw [hscan]
      exact replaceScan_chain false line
    · rw [hscan, regexp.ReplaceAllString, str_space]
      exact replaceScan_fixed false _ (replaceScan_only_space false line)
        (replaceScan_chain false line) (by intro h; cases h)
  · intro tree modPrefix outFile contents h
    unfold generateSynspecInputFile at h
    cases hw : walk modPrefix tree [] with
    | crash => rw [hw] at h; cases h
    | err e => rw [hw] at h; cases h
    | ok c =>
      rw [hw] at h
      simp only [Outcome.ok.injEq] at h
      subst h
      obtain ⟨-, -, outs, h1, h2⟩ := (walk_eq_ok modPrefix tree [] c).mp hw
      exact ⟨outs, h1, by simpa using h2⟩
  · intro tree modPrefix outFile hentries hlines
    have hmap : ∀ lines : List GoString, (∀ l ∈ lines, (toAppend l).isSome = true) →
        ∃ outs : List GoString, lines.map toAppend = outs.map some := by
      intro lines
      induction lines with
      | nil => intro _; exact ⟨[], rfl⟩
      | cons l t ih =>
        intro hl
        obtain ⟨outs, ho⟩ := ih (fun x hx => hl x (List.mem_cons_of_mem _ hx))
        obtain ⟨out, hout⟩ := Option.isSome_iff_exists.mp (hl l (List.mem_cons_self _ _))
        exact ⟨out :: outs, by simp [hout, ho]⟩
    obtain ⟨outs, ho⟩ := hmap _ hlines
    have hw := (walk_eq_ok modPrefix tree [] _).mpr
      ⟨fun e he => (hentries e he).1, fun e he _ _ => (hentries e he).2, outs, ho, rfl⟩
    unfold generateSynspecInputFile
    rw [hw]
    exact ⟨_, rfl⟩

/-- C9, at the line `  72   layers\t here ` and a tree of one model file with it. -/
theorem generateSynspecInputFile_other_lines_witness :
    toAppend (str "  72   layers\t here ") = some (str " 72 layers here ") ∧
    ∃ outs : List GoString,
      (scannedLines (str "t10000_400_72_strat.mod")
        [⟨str "t10000_400_72_strat.mod", some false, false,
          [str "  72   layers\t here "], none⟩]).map toAppend = outs.map some ∧
      str " 72 layers here \n" = (outs.map (fun out => out ++ str "\n")).flatten := by
  constructor
  · rw [(generateSynspecInputFile_other_lines.1 (str "  72   layers\t here ")
      (by decide) (by decide)).1]
    decide
  · exact generateSynspecInputFile_other_lines.2.1
      [⟨str "t10000_400_72_strat.mod", some false, false, [str "  72   layers\t here "], none⟩]
      (str "t10000_400_72_strat.mod") (str "fort.8") (str " 72 layers here \n") (by decide)

/-- C10: `recreateVarsLine` returns a value exactly when its list has at least five
tokens; then the value depends on the first five tokens only, and on a shorter list an
index is out of range. So a line whose collapsed form begins with `TEFF` and splits on
single spaces into fewer than five tokens, such as `TEFF 10000. GRAVITY 4.0` or `TEFF`,
makes the transformation of the line fail (a panic) instead of emitting a line. -/
theorem recreateVarsLine_needs_five_tokens :
    (∀ l : List GoString, (recreateVarsLine l).isSome = true ↔ 5 ≤ l.length) ∧
    (∀ l l' : List GoString, 5 ≤ l.length → l.take 5 = l'.take 5 →
      recreateVarsLine l = recreateVarsLine l') ∧
    (∀ line : GoString,
      strings.HasPrefix (regexp.ReplaceAllString line (str " ")) (str "TEFF") = true →
      (strings.Split (regexp.ReplaceAllString line (str " ")) 32).length < 5 →
      toAppend line = none ∧ ∀ rest contents, scanLoop (line :: rest) contents = none) ∧
    (∀ line : GoString, strings.HasPrefix line (str "TEFF") = true →
      (strings.Split (regexp.ReplaceAllString line (str " ")) 32).length < 5 →
      toAppend line = none) ∧
    toAppend (str "TEFF 10000. GRAVITY 4.0") = none ∧
    toAppend (str "TEFF") = none := by
  have hiff : ∀ l : List GoString, (recreateVarsLine l).isSome = true ↔ 5 ≤ l.length := by
    intro l
    constructor
    · intro h
      by_contra hlt
      rw [recreateVarsLine_short l (by omega)] at h
      cases h
    · intro h
      rcases l with _ | ⟨a, _ | ⟨b, _ | ⟨c, _ | ⟨d, _ | ⟨e, rest⟩⟩⟩⟩⟩
      · simp at h
      · simp at h
      · simp at h
      · simp at h
      · simp at h
      · rw [recreateVarsLine_cons5]
        rfl
  have hline : ∀ line : GoString,
      strings.HasPrefix (regexp.ReplaceAllString line (str " ")) (str "TEFF") = true →
      (strings.Split (regexp.ReplaceAllString line (str " ")) 32).length < 5 →
      toAppend line = none := by
    intro line hteff hshort
    unfold toAppend
    simp only [hteff, if_true]
    exact recreateVarsLine_short _ hshort
  refine ⟨hiff, ?_, ?_, fun line h hshort => hline line (HasPrefix_TEFF_collapsed line h) hshort,
    by decide, by decide⟩
  · intro l l' hlen htake
    have hlen' : 5 ≤ l'.length := by
      have h1 : (l.take 5).length = 5 := by simp [hlen]
      rw [htake, List.length_take] at h1
      omega
    rcases l with _ | ⟨a, _ | ⟨b, _ | ⟨c, _ | ⟨d, _ | ⟨e, rest⟩⟩⟩⟩⟩
    · simp at hlen
    · simp at hlen
    · simp at hlen
    · simp at hlen
    · simp at hlen
    · rcases l' with _ | ⟨a', _ | ⟨b', _ | ⟨c', _ | ⟨d', _ | ⟨e', rest'⟩⟩⟩⟩⟩
      · simp at hlen'
      · simp at hlen'
      · simp at hlen'
      · simp at hlen'
      · simp at hlen'
      · simp only [List.take_succ_cons, List.take_zero, List.cons.injEq, and_true] at htake
        obtain ⟨h1, h2, h3, h4, h5⟩ := htake
        subst h1 h2 h3 h4 h5
        rw [recreateVarsLine_cons5, recreateVarsLine_cons5]
  · intro line hteff hshort
    have hout : toAppend line = none := hline line hteff hshort
    refine ⟨hout, ?_⟩
    intro rest contents
    simp [scanLoop, hout]

/-- C10, at the line `TEFF   10000.  GRAVITY 4.0`, of four tokens. -/
theorem recreateVarsLine_needs_five_tokens_witness :
    toAppend (str "TEFF   10000.  GRAVITY 4.0") = none :=
  (recreateVarsLine_needs_five_tokens.2.2.1 (str "TEFF   10000.  GRAVITY 4.0")
    (by decide) (by decide)).1

/-! ## The executor: generation errors and sample runs -/

theorem results_filter (tr : List Event) (i : Nat) :
    results (tr.filter (fun ev => decide (ev.index < i))) =
      (results tr).filter (fun r => decide (r.Step < i)) := by
  induction tr with
  | nil => rfl
  | cons ev t ih =>
    unfold results at ih ⊢
    cases ev with
    | command j c a =>
      have hidx : (Event.command j c a).index = j := rfl
      by_cases h : j < i <;> simp [List.filter_cons, hidx, h, ih]
    | result r =>
      have hidx : (Event.result r).index = r.Step := rfl
      by_cases h : r.Step < i <;> simp [List.filter_cons, hidx, h, ih]

/-- C5: when the generation of an input file fails at a step `i` with an empty status
(`i = 0`: the model input file; `i = 2`, reached: the reformatter, the write of `fort.8`
or the runtime input file), no result is sent and no command is run for the step `i` or
a later step, and what the pass does is what the pass without the failure does for the
steps before `i`; so a failure at index 2 with the steps 0 and 1 not run yet, after a
setup without error, leaves exactly the results of the steps 0 and 1. -/
theorem pass_generation_error (e : Executor) (w : World)
    (calculation : calculationsv1.Calculation) (i : Nat) (s : calculationsv1.Step)
    (hi : calculation.Steps[i]? = some s) (hs : s.Status = [])
    (hfail : (i = 0 ∧ w.generateInputFile ≠ none) ∨
      (i = 2 ∧
        (w.generateInputFile = none ∨
          ∃ s0, calculation.Steps[0]? = some s0 ∧ s0.Status ≠ []) ∧
        ¬ ∃ contents, generateSynspecInputFile w.tree (str "t10000_400_72_strat.mod")
            (str "fort.8") = .ok contents ∧
          w.WriteFile contents = none ∧ w.generateSynspecInputRuntimeFile = none)) :
    (∀ r ∈ results (e.pass w calculation).trace, r.Step < i) ∧
    (∀ j ∈ executed (e.pass w calculation).trace, j < i) ∧
    (e.pass w calculation).trace =
      (e.pass w.generationSucceeds calculation).trace.filter
        (fun ev => decide (ev.index < i)) ∧
    results (e.pass w calculation).trace =
      (results (e.pass w.generationSucceeds calculation).trace).filter
        (fun r => decide (r.Step < i)) ∧
    (∀ s0 s1 : calculationsv1.Step, i = 2 →
      w.Setrlimit = none → (w.Stat = none ∨ w.MkdirAll = none) →
      (w.Walk e.atlasControlFiles = none ∧ w.Walk e.atlasDataFiles = none) →
      calculation.Steps[0]? = some s0 → calculation.Steps[1]? = some s1 →
      s0.Status = [] → s1.Status = [] →
      results (e.pass w calculation).trace =
        [stepResult w calculation.Name 0
            { command := s0.Command, args := s0.Args, status := s0.Status },
          stepResult w calculation.Name 1
            { command := s1.Command, args := s1.Args, status := s1.Status }]) := by
  have hfail' : (i = 0 ∧ w.generateInputFile ≠ none) ∨
      (i = 2 ∧
        (w.generateInputFile = none ∨
          ∃ s0, calculation.Steps[0]? = some s0 ∧ s0.Status ≠ []) ∧
        generateSynspec w ≠ .ok ()) := by
    rcases hfail with h | ⟨h1, h2, h3⟩
    · exact Or.inl h
    · exact Or.inr ⟨h1, h2, fun hok => h3 ((generateSynspec_eq_ok w).mp hok)⟩
  have htrace := pass_trace_generation_error e w calculation i s hi hs hfail'
  have hlt : ∀ ev ∈ (e.pass w calculation).trace, ev.index < i := by
    intro ev hev
    rw [htrace, List.mem_filter] at hev
    simpa using hev.2
  refine ⟨fun r hr => hlt _ (mem_results hr), ?_, htrace, ?_, ?_⟩
  · intro j hj
    obtain ⟨c, a, hca⟩ := mem_executed hj
    exact hlt _ hca
  · rw [← results_filter, ← htrace]
  · intro s0 s1 hi2 hstack hdir hlinks h0 h1 hs0 hs1
    subst hi2
    rcases hfail' with ⟨h, -⟩ | ⟨-, hreach, hgen⟩
    · cases h
    · rw [pass_of_setup e w calculation hstack hdir hlinks]
      rcases hsteps : calculation.Steps with _ | ⟨a, _ | ⟨b, _ | ⟨c, rest⟩⟩⟩
      · rw [hsteps] at hi; simp at hi
      · rw [hsteps] at hi; simp at hi
      · rw [hsteps] at hi; simp at hi
      · rw [hsteps] at hi h0 h1 hreach
        simp only [List.getElem?_cons_succ, List.getElem?_cons_zero, Option.some.injEq]
          at hi h0 h1
        subst hi h0 h1
        have hg0 : w.generateInputFile = none := by
          rcases hreach with h | ⟨s0, hs0', hset⟩
          · exact h
          · simp only [List.getElem?_cons_zero, Option.some.injEq] at hs0'
            rw [← hs0'] at hset
            exact absurd hs0 hset
        simp only [List.map_cons]
        rw [runSteps_trace_early w _ 0 _ _ (by decide) (fun _ _ => hg0),
          runSteps_trace_early w _ 1 _ _ (by decide) (fun h => absurd h (by decide)),
          runSteps_break2 w _ _ _ hs hgen, if_pos hs0, if_pos hs1, List.append_nil,
          results_stepEvents_append]
        simp [results, stepEvents]

/-- C1, at the sample calculation in the quiet world: three results, for the steps
0, 1 and 2. -/
theorem Run_all_completed_witness :
    (results (sampleExecutor.Run [(quietWorld, sampleCalculation)])).map (fun r => r.Step) =
      [0, 1, 2] :=
  (Run_all_completed sampleExecutor quietWorld sampleCalculation (by decide) rfl (Or.inl rfl)
    ⟨rfl, rfl⟩ rfl ⟨[], by decide, rfl, rfl⟩ (fun _ _ _ => rfl)).2.1

/-- C2, at the sample calculation in the world where the command of step 1 fails: the
result for step 1 is `Failed` with the error, and the command of step 2 is run. -/
theorem Run_continues_after_failure_witness :
    (results (sampleExecutor.Run [(failingWorld, sampleCalculation)]))[1]? = some
      ({ CalcName := str "calc-xyz"
         Step := 1
         Status := str "Failed"
         StdoutStderr := str "segmentation fault"
         CommandError := some (str "exit status 1") } : Result) ∧
    executed (sampleExecutor.Run [(failingWorld, sampleCalculation)]) = [0, 1, 2] :=
  have h := Run_continues_after_failure sampleExecutor failingWorld sampleCalculation 1
    ⟨str "atlas12_ada", [str "r"], []⟩ (str "exit status 1") (by decide) rfl (Or.inl rfl)
    ⟨rfl, rfl⟩ rfl ⟨[], by decide, rfl, rfl⟩ (by decide) (by decide)
  ⟨h.1, h.2.2.2⟩

/-- C3, at the resumed calculation, whose step 1 is `Completed` already: its command is
not run again. -/
theorem pass_results_increasing_witness :
    decide (1 ∈ executed (sampleExecutor.pass quietWorld resumedCalculation).trace) = false :=
  decide_eq_false
    ((pass_results_increasing sampleExecutor quietWorld resumedCalculation).2 1
      ⟨str "atlas12_ada", [str "r"], str "Completed"⟩ (by decide) (by decide)).2

/-- C4, at a world where the stack limit cannot be raised: the calculation leaves no
event and the next one is processed. -/
theorem Run_setup_error_witness :
    sampleExecutor.Run [(noStackWorld, sampleCalculation), (quietWorld, sampleCalculation)] =
      sampleExecutor.Run [(quietWorld, sampleCalculation)] :=
  (Run_setup_error sampleExecutor noStackWorld sampleCalculation
    [(quietWorld, sampleCalculation)] (Or.inl (by decide))).2.2.2

/-- C5, at a world where `fort.8` cannot be written: the results are those of the
steps 0 and 1. -/
theorem pass_generation_error_witness :
    results (sampleExecutor.pass readOnlyWorld sampleCalculation).trace =
      [stepResult readOnlyWorld (str "calc-xyz") 0 ⟨str "atlas12_ada", [str "s"], []⟩,
        stepResult readOnlyWorld (str "calc-xyz") 1 ⟨str "atlas12_ada", [str "r"], []⟩] :=
  (pass_generation_error sampleExecutor readOnlyWorld sampleCalculation 2
    ⟨str "synspec49", [str "<", str "input_tlusty_fortfive"], []⟩ (by decide) (by decide)
    (Or.inr ⟨rfl, Or.inl rfl, by
      rintro ⟨contents, -, hw, -⟩
      cases hw⟩)).2.2.2.2
    ⟨str "atlas12_ada", [str "s"], []⟩ ⟨str "atlas12_ada", [str "r"], []⟩ rfl rfl (Or.inl rfl)
    ⟨rfl, rfl⟩ (by decide) (by decide) rfl rfl

/-! ## The template renderer -/

theorem str_open : str "\x7b\x7b" = [123, 123] := by decide

theorem str_dot : str "." = [46] := by decide

theorem str_close : str "\x7d\x7d" = [125, 125] := by decide

theorem isBlank_cases {b : UInt8} (h : template.isBlank b = true) : b = 32 ∨ b = 9 := by
  simpa [template.isBlank] using h

theorem isBlank_not_ident {b : UInt8} (h : template.isBlank b = true) :
    template.isIdentRest b = false := by
  rcases isBlank_cases h with hb | hb <;> rw [hb] <;> decide

theorem isBlank_ne_brace {b : UInt8} (h : template.isBlank b = true) : b ≠ 125 := by
  rcases isBlank_cases h with hb | hb <;> rw [hb] <;> decide

theorem isIdentRest_ne_brace {b : UInt8} (h : template.isIdentRest b = true) : b ≠ 125 := by
  intro hb
  rw [hb] at h
  exact absurd h (by decide)

theorem isIdentStart_isIdentRest {b : UInt8} (h : template.isIdentStart b = true) :
    template.isIdentRest b = true := by
  simp [template.isIdentRest, h]

theorem dropWhile_append_of_all {p : UInt8 → Bool} (l m : GoString)
    (h : ∀ x ∈ l, p x = true) : (l ++ m).dropWhile p = m.dropWhile p := by
  induction l with
  | nil => rfl
  | cons a t ih =>
    rw [List.cons_append, List.dropWhile_cons, if_pos (h a (List.mem_cons_self _ _)),
      ih (fun x hx => h x (List.mem_cons_of_mem _ hx))]

theorem takeWhile_append_of_all {p : UInt8 → Bool} (l m : GoString)
    (h : ∀ x ∈ l, p x = true) : (l ++ m).takeWhile p = l ++ m.takeWhile p := by
  induction l with
  | nil => rfl
  | cons a t ih =>
    rw [List.cons_append, List.takeWhile_cons, if_pos (h a (List.mem_cons_self _ _)),
      ih (fun x hx => h x (List.mem_cons_of_mem _ hx))]
    rfl

/-- Blanks are no part of an identifier. -/
theorem blanks_not_ident (r : GoString) (h : ∀ x ∈ r, template.isBlank x = true) :
    r.dropWhile template.isIdentRest = r ∧ r.takeWhile template.isIdentRest = [] := by
  cases r with
  | nil => exact ⟨rfl, rfl⟩
  | cons a t =>
    have ha := isBlank_not_ident (h a (List.mem_cons_self _ _))
    constructor
    · rw [List.dropWhile_cons, ha]
      rfl
    · rw [List.takeWhile_cons, ha]
      rfl

/-- The body of an action that prints a field, with blanks around it, is read as such. -/
theorem fieldAction_var (left name right : GoString)
    (hleft : left.all template.isBlank = true) (hname : template.isIdent name = true)
    (hright : right.all template.isBlank = true) :
    template.fieldAction (left ++ 46 :: (name ++ right)) = some (.field name) := by
  cases name with
  | nil => simp [template.isIdent] at hname
  | cons c rest =>
    simp only [template.isIdent, Bool.and_eq_true] at hname
    have hl : ∀ x ∈ left, template.isBlank x = true := List.all_eq_true.mp hleft
    have hr : ∀ x ∈ right, template.isBlank x = true := List.all_eq_true.mp hright
    have hn : ∀ x ∈ c :: rest, template.isIdentRest x = true := by
      intro x hx
      rcases List.mem_cons.mp hx with hx | hx
      · rw [hx]
        exact isIdentStart_isIdentRest hname.1
      · exact List.all_eq_true.mp hname.2 x hx
    have hdot : template.isBlank 46 = false := by decide
    have hdrop : (left ++ 46 :: c :: (rest ++ right)).dropWhile template.isBlank =
        46 :: c :: (rest ++ right) := by
      rw [dropWhile_append_of_all left _ hl, List.dropWhile_cons, hdot]
      rfl
    have hafter : (c :: (rest ++ right)).dropWhile template.isIdentRest = right := by
      rw [← List.cons_append, dropWhile_append_of_all (c :: rest) right hn,
        (blanks_not_ident right hr).1]
    have hname' : (c :: (rest ++ right)).takeWhile template.isIdentRest = c :: rest := by
      rw [← List.cons_append, takeWhile_append_of_all (c :: rest) right hn,
        (blanks_not_ident right hr).2, List.append_nil]
    unfold template.fieldAction
    rw [List.cons_append, hdrop]
    simp only
    rw [hafter, hname']
    simp [hname.1, hright]

theorem noOpen_tail {b : UInt8} {t : GoString} (hb : b ≠ 123)
    (h : template.noOpen (b :: t) = true) : template.noOpen t = true := by
  unfold template.noOpen at h
  rw [if_neg hb] at h
  exact h

/-- Text without a left delimiter is taken over as it is. -/
theorem scan_text_append (s : GoString) (hs : template.noOpen s = true)
    (acc : GoString) (ns : List template.Node) (tail : GoString) :
    template.scan .text acc ns (s ++ tail) = template.scan .text (acc ++ s) ns tail := by
  induction s generalizing acc with
  | nil => simp
  | cons b t ih =>
    by_cases hb : b = 123
    · cases t with
      | nil =>
        unfold template.noOpen at hs
        rw [if_pos hb] at hs
        cases hs
      | cons c t' =>
        unfold template.noOpen at hs
        rw [if_pos hb] at hs
        simp only [Bool.and_eq_true, bne_iff_ne, ne_eq] at hs
        have hc : c ≠ 123 := hs.1
        have ih' := ih hs.2 (acc ++ [123])
        rw [List.cons_append, template.scan, if_neg hc] at ih'
        rw [List.cons_append, List.cons_append, template.scan, if_pos hb, template.scan,
          if_neg hc]
        have e1 : acc ++ [123, c] = acc ++ [123] ++ [c] := by simp
        have e2 : acc ++ b :: c :: t' = acc ++ [123] ++ c :: t' := by simp [hb]
        rw [e1, ih', e2]
    · rw [List.cons_append, template.scan, if_neg hb, ih (noOpen_tail hb hs)]
      simp

/-- Inside an action, bytes other than the right brace are taken into its body. -/
theorem scan_action_append (s : GoString) (hs : ∀ b ∈ s, b ≠ 125)
    (acc : GoString) (ns : List template.Node) (tail : GoString) :
    template.scan .action acc ns (s ++ tail) = template.scan .action (acc ++ s) ns tail := by
  induction s generalizing acc with
  | nil => simp
  | cons b t ih =>
    rw [List.cons_append, template.scan, if_neg (hs b (List.mem_cons_self _ _)),
      ih (fun x hx => hs x (List.mem_cons_of_mem _ hx))]
    simp

/-- The action that prints a field is read as such, and the text before it is kept. -/
theorem scan_var (left name right : GoString)
    (hp : (template.Piece.var left name right).wellFormed = true)
    (acc : GoString) (ns : List template.Node) (tail : GoString) :
    template.scan .text acc ns ((template.Piece.var left name right).source ++ tail) =
      template.scan .text [] (ns ++ [.text acc, .field name]) tail := by
  simp only [template.Piece.wellFormed, Bool.and_eq_true] at hp
  obtain ⟨⟨hleft, hname⟩, hright⟩ := hp
  have hbody : ∀ b ∈ left ++ 46 :: (name ++ right), b ≠ 125 := by
    intro b hb
    rcases List.mem_append.mp hb with hb | hb
    · exact isBlank_ne_brace (List.all_eq_true.mp hleft b hb)
    · rcases List.mem_cons.mp hb with hb | hb
      · rw [hb]
        decide
      · rcases List.mem_append.mp hb with hb | hb
        · cases name with
          | nil => cases hb
          | cons c rest =>
            simp only [template.isIdent, Bool.and_eq_true] at hname
            rcases List.mem_cons.mp hb with hb | hb
            · rw [hb]
              exact isIdentRest_ne_brace (isIdentStart_isIdentRest hname.1)
            · exact isIdentRest_ne_brace (List.all_eq_true.mp hname.2 b hb)
        · exact isBlank_ne_brace (List.all_eq_true.mp hright b hb)
  have hsrc : (template.Piece.var left name right).source ++ tail =
      123 :: 123 :: ((left ++ 46 :: (name ++ right)) ++ 125 :: 125 :: tail) := by
    simp [template.Piece.source, str_open, str_dot, str_close]
  rw [hsrc, template.scan, if_pos rfl, template.scan, if_pos rfl,
    scan_action_append _ hbody, template.scan, if_pos rfl, template.scan, if_pos rfl,
    List.nil_append, fieldAction_var left name right hleft hname hright]
  simp

/-- What a piece is rendered as: text as it is, a field as its value in the map, or
as `<no value>` when the map has no such key. -/
theorem execNode_field (vars : template.Vars) (name : GoString) :
    template.execNode vars (.field name) =
      match vars.lookup name with
      | some value => value
      | none => str "<no value>" := rfl

/-- Reading the text of well-formed pieces leaves the lexer in text, with nodes that
render as the pieces read. -/
theorem scan_source_append (vars : template.Vars) (pieces : List template.Piece)
    (hp : ∀ p ∈ pieces, p.wellFormed = true) (acc : GoString) (ns : List template.Node)
    (tail : GoString) :
    ∃ acc' ns', template.scan .text acc ns (template.source pieces ++ tail) =
        template.scan .text acc' ns' tail ∧
      (ns'.map (template.execNode vars)).flatten ++ acc' =
        (ns.map (template.execNode vars)).flatten ++ acc ++
          (pieces.map (fun p => match p with
            | .text s => s
            | .var _ name _ =>
              match vars.lookup name with
              | some value => value
              | none => str "<no value>")).flatten := by
  induction pieces generalizing acc ns with
  | nil => exact ⟨acc, ns, rfl, by simp⟩
  | cons p rest ih =>
    have hrest : ∀ q ∈ rest, q.wellFormed = true := fun q hq => hp q (List.mem_cons_of_mem _ hq)
    have hpw := hp p (List.mem_cons_self _ _)
    have hsrc : template.source (p :: rest) ++ tail = p.source ++ (template.source rest ++ tail) := by
      simp [template.source]
    rw [hsrc]
    cases p with
    | text s =>
      obtain ⟨acc', ns', h1, h2⟩ := ih hrest (acc ++ s) ns
      refine ⟨acc', ns', ?_, ?_⟩
      · rw [template.Piece.source, scan_text_append s hpw, h1]
      · rw [h2]
        simp
    | var left name right =>
      obtain ⟨acc', ns', h1, h2⟩ := ih hrest [] (ns ++ [.text acc, .field name])
      refine ⟨acc', ns', ?_, ?_⟩
      · rw [scan_var left name right hpw, h1]
      · rw [h2]
        simp [template.execNode]

/-- C8 as stated fails: the template with the one action that prints `.Teff`, rendered
with a map that has no key `Teff`, is no error, whatever the library does with other
templates; the action is rendered as `<no value>`. -/
theorem parseTemplate_missing_key :
    List.lookup (str "Teff") [(str "LogG", str "4.25")] = none ∧
    (fun lib : template.Library =>
      parseTemplate lib (str "\x7b\x7b.Teff\x7d\x7d") [(str "LogG", str "4.25")]) =
      fun _ => .ok (str "<no value>") := by
  refine ⟨by decide, ?_⟩
  funext lib
  rfl

/-- C8, amended: `parseTemplate` returns an error whenever the template text cannot be
parsed, with the error of the library in it, and it returns an error only when parsing
or executing the template fails. A field whose name is missing from the variable map is
no error: it is rendered as `<no value>`. A template text of plain text and actions that
print a field is returned with each action replaced by the string the map has for its
name exactly, the text between the actions unchanged. -/
theorem parseTemplate_renders :
    (∀ (lib : template.Library) (data : GoString) (vars : template.Vars) (err : GoError),
      template.Parse lib data = .error err →
      parseTemplate lib data vars =
        .error (str "error while parsing the template's data: " ++ err)) ∧
    (∀ (lib : template.Library) (data : GoString) (vars : template.Vars) (err : GoError),
      template.fragment data = none → lib.Parse data = some err →
      parseTemplate lib data vars =
        .error (str "error while parsing the template's data: " ++ err)) ∧
    (∀ (lib : template.Library) (data : GoString) (vars : template.Vars),
      (∃ e, parseTemplate lib data vars = .error e) ↔
        ((∃ e, template.Parse lib data = .error e) ∨
          ∃ tmpl e, template.Parse lib data = .ok tmpl ∧
            template.Execute lib tmpl vars = .error e)) ∧
    (∀ (lib : template.Library) (pieces : List template.Piece) (vars : template.Vars),
      (∀ p ∈ pieces, p.wellFormed = true) →
      parseTemplate lib (template.source pieces) vars =
        .ok ((pieces.map (fun p => match p with
          | .text s => s
          | .var _ name _ =>
            match vars.lookup name with
            | some value => value
            | none => str "<no value>")).flatten)) := by
  refine ⟨?_, ?_, ?_, ?_⟩
  · intro lib data vars err h
    unfold parseTemplate
    rw [h]
  · intro lib data vars err hfrag hlib
    have h : template.Parse lib data = .error err := by
      unfold template.Parse
      rw [hfrag, hlib]
    unfold parseTemplate
    rw [h]
  · intro lib data vars
    unfold parseTemplate
    cases hparse : template.Parse lib data with
    | error e => simp
    | ok tmpl =>
      cases hexec : template.Execute lib tmpl vars with
      | error e => simp [hexec]
      | ok bytes => simp [hexec]
  · intro lib pieces vars hp
    obtain ⟨acc', ns', h1, h2⟩ := scan_source_append vars pieces hp [] [] []
    have hfrag : template.fragment (template.source pieces) = some (ns' ++ [.text acc']) := by
      unfold template.fragment
      rw [List.append_nil] at h1
      rw [h1]
      cases ns' <;> rfl
    unfold parseTemplate template.Parse
    rw [hfrag]
    simp only [template.Execute]
    congr 1
    simp only [List.map_append, List.map_cons, List.map_nil, List.flatten_append,
      List.flatten_cons, List.flatten_nil, List.append_nil, template.execNode]
    rw [h2]
    simp

/-- C8, amended, at a model template with both variables in the map, one of them
written with blanks. -/
theorem parseTemplate_renders_witness :
    (fun lib : template.Library =>
      parseTemplate lib
        (str "TEFF \x7b\x7b.Teff\x7d\x7d GRAVITY \x7b\x7b .LogG \x7d\x7d a\x7bb")
        [(str "Teff", str "10125.4"), (str "LogG", str "4.25")]) =
      fun _ => .ok (str "TEFF 10125.4 GRAVITY 4.25 a\x7bb") := by
  funext lib
  have h := parseTemplate_renders.2.2.2 lib
    [.text (str "TEFF "), .var [] (str "Teff") [], .text (str " GRAVITY "),
      .var (str " ") (str "LogG") (str " "), .text (str " a\x7bb")]
    [(str "Teff", str "10125.4"), (str "LogG", str "4.25")] (by decide)
  have hsrc : template.source
      [.text (str "TEFF "), .var [] (str "Teff") [], .text (str " GRAVITY "),
        .var (str " ") (str "LogG") (str " "), .text (str " a\x7bb")] =
      str "TEFF \x7b\x7b.Teff\x7d\x7d GRAVITY \x7b\x7b .LogG \x7d\x7d a\x7bb" := by
    decide
  rw [hsrc] at h
  rw [h]
  exact congrArg Except.ok (by decide)

end executor
